import Mathlib

/-!
# Verification of the sedpack FlatBuffers shard writer

This file gives a shallow embedding of
`src/sedpack/io/shard/shard_writer_flatbuffer.py` (class `ShardWriterFlatBuffer`
with its static encoder `save_numpy_vector_as_bytearray`, the example writer
`_write` and `close`) together with the collaborators the spec describes at
their interface boundary:

* the *buffer assembler* (the FlatBuffers `Builder`): a backward-growing arena
  with a cursor that moves from the end of storage toward the start.  Every
  operation prepends bytes at the cursor; already written content keeps its
  distance from the *end* of the buffer forever.  We therefore represent the
  written region as a forward list `buf` whose head is the byte at the cursor,
  and address content by its distance from the end (`Builder.offset` of the
  library = `buf.length`).  Usage assertions of the library (`nested` flags,
  bound checks) are omitted; validity of every call the writer makes is proved.
* NumPy arrays over the fixed-width integer dtypes: an array is its logical
  element values (row-major flattened) plus a dtype carrying signedness,
  item size in bytes, and a byte-order tag character.

Machine integers are `Nat`/`Int` with explicit `% 2 ^ w` where overflow
matters.  All definitions are executable.
-/

namespace Sedpack

/-! ## Little-endian bytes -/

/-- Little-endian byte list of width `w` of an unsigned value. -/
def leBytesU : Nat → Nat → List Nat
  | 0, _ => []
  | w + 1, n => n % 256 :: leBytesU w (n / 256)

/-- Value of a little-endian byte list. -/
def natFromLE : List Nat → Nat
  | [] => 0
  | b :: bs => b + 256 * natFromLE bs

@[simp] theorem leBytesU_length (w n : Nat) : (leBytesU w n).length = w := by
  induction w generalizing n with
  | zero => rfl
  | succ w ih => simp [leBytesU, ih]

theorem leBytesU_lt (w n : Nat) : ∀ b ∈ leBytesU w n, b < 256 := by
  induction w generalizing n with
  | zero => simp [leBytesU]
  | succ w ih =>
    intro b hb
    simp only [leBytesU, List.mem_cons] at hb
    rcases hb with h | h
    · omega
    · exact ih _ _ h

theorem mod_mul_split (n p : Nat) (hp : 0 < p) :
    n % (256 * p) = n % 256 + 256 * (n / 256 % p) := by
  have key : ∀ q r : Nat, r < 256 → (256 * q + r) % (256 * p) = r + 256 * (q % p) := by
    intro q r hr
    have h1 : (256 * q) % (256 * p) = 256 * (q % p) := Nat.mul_mod_mul_left _ _ _
    have hqp : q % p < p := Nat.mod_lt _ hp
    have hlt : 256 * (q % p) + r < 256 * p := by omega
    calc (256 * q + r) % (256 * p)
        = ((256 * q) % (256 * p) + r % (256 * p)) % (256 * p) := by rw [← Nat.add_mod]
      _ = (256 * (q % p) + r) % (256 * p) := by
          rw [h1, Nat.mod_eq_of_lt (by omega : r < 256 * p)]
      _ = 256 * (q % p) + r := Nat.mod_eq_of_lt hlt
      _ = r + 256 * (q % p) := by ring
  have hn := Nat.div_add_mod n 256
  have := key (n / 256) (n % 256) (Nat.mod_lt _ (by omega))
  calc n % (256 * p) = (256 * (n / 256) + n % 256) % (256 * p) := by rw [hn]
    _ = n % 256 + 256 * (n / 256 % p) := this

theorem natFromLE_leBytesU (w n : Nat) : natFromLE (leBytesU w n) = n % 256 ^ w := by
  induction w generalizing n with
  | zero => simp [leBytesU, natFromLE, Nat.mod_one]
  | succ w ih =>
    simp only [leBytesU, natFromLE, ih]
    rw [pow_succ, mul_comm ((256:Nat) ^ w) 256, mod_mul_split n (256 ^ w) (Nat.pos_pow_of_pos _ (by omega))]

theorem natFromLE_lt (bs : List Nat) (h : ∀ b ∈ bs, b < 256) :
    natFromLE bs < 256 ^ bs.length := by
  induction bs with
  | nil => simp [natFromLE]
  | cons b bs ih =>
    have hb := h b (by simp)
    have hrest := ih (fun x hx => h x (by simp [hx]))
    simp only [natFromLE, List.length_cons, pow_succ]
    calc b + 256 * natFromLE bs < 256 + 256 * natFromLE bs := by omega
    _ = 256 * (natFromLE bs + 1) := by ring
    _ ≤ 256 * 256 ^ bs.length := by
        have : natFromLE bs + 1 ≤ 256 ^ bs.length := hrest
        exact Nat.mul_le_mul_left _ this
    _ = 256 ^ bs.length * 256 := by ring

theorem leBytesU_natFromLE (bs : List Nat) (h : ∀ b ∈ bs, b < 256) :
    leBytesU bs.length (natFromLE bs) = bs := by
  induction bs with
  | nil => rfl
  | cons b bs ih =>
    have hb := h b (by simp)
    have h1 : (b + 256 * natFromLE bs) % 256 = b := by omega
    have h2 : (b + 256 * natFromLE bs) / 256 = natFromLE bs := by omega
    simp only [List.length_cons, leBytesU, natFromLE, h1, h2]
    rw [ih (fun x hx => h x (by simp [hx]))]

/-! ## Machine integers: two's complement encode / decode -/

/-- Two's-complement bit pattern (as a `Nat`) of the logical value `v`
at width `w` bytes. -/
def toU (w : Nat) (v : Int) : Nat := (v % ((2 : Int) ^ (8 * w))).toNat

/-- Logical value of the bit pattern `u` at width `w` bytes, signed or not. -/
def fromU (w : Nat) (signed : Bool) (u : Nat) : Int :=
  if signed && decide (2 ^ (8 * w - 1) ≤ u) then (u : Int) - 2 ^ (8 * w) else (u : Int)

theorem toU_lt (w : Nat) (v : Int) : toU w v < 2 ^ (8 * w) := by
  unfold toU
  have hcast : ((2 : Int) ^ (8 * w)) = ((2 ^ (8 * w) : Nat) : Int) := by push_cast; ring
  have hpos : 0 < (2 ^ (8 * w) : Nat) := Nat.pos_pow_of_pos _ (by omega)
  rw [hcast]
  generalize hM : (2 ^ (8 * w) : Nat) = M at hpos ⊢
  have h2 : (0 : Int) < (M : Int) := by exact_mod_cast hpos
  have hlt := Int.emod_lt_of_pos v h2
  have hnn : 0 ≤ v % (M : Int) := Int.emod_nonneg v (by omega)
  omega

theorem toU_ofNat (w : Nat) (u : Nat) (h : u < 2 ^ (8 * w)) : toU w (u : Int) = u := by
  unfold toU
  rw [Int.emod_eq_of_lt (by omega) (by exact_mod_cast h)]
  simp

/-- Decoding after encoding is the identity on bit patterns. -/
theorem toU_fromU (w : Nat) (signed : Bool) (u : Nat) (h : u < 2 ^ (8 * w)) :
    toU w (fromU w signed u) = u := by
  have hpos : (0 : Int) < (2 : Int) ^ (8 * w) := by positivity
  unfold fromU
  by_cases hs : signed && decide (2 ^ (8 * w - 1) ≤ u)
  · simp only [hs, if_true]
    unfold toU
    have hsub : ((u : Int) - 2 ^ (8 * w)) % ((2 : Int) ^ (8 * w))
        = (u : Int) % ((2 : Int) ^ (8 * w)) := by
      conv_lhs => rw [Int.sub_emod, Int.emod_self]
      simp [Int.emod_emod_of_dvd]
    rw [hsub, Int.emod_eq_of_lt (by positivity) (by exact_mod_cast h)]
    simp
  · simp only [hs, if_false]
    exact toU_ofNat w u h

/-- The dtype of a fixed-width integer attribute: signedness, item size in
bytes, and the NumPy byte-order tag character. -/
structure Dtype where
  signed : Bool
  itemsize : Nat
  border : Char
deriving DecidableEq, Repr

/-- The value range of a dtype. -/
def Dtype.inRange (d : Dtype) (v : Int) : Bool :=
  if d.signed then
    decide (-((2 : Int) ^ (8 * d.itemsize - 1)) ≤ v ∧ v < 2 ^ (8 * d.itemsize - 1))
  else decide (0 ≤ v ∧ v < 2 ^ (8 * d.itemsize))

/-- Well-formed dtype: an item size NumPy offers for fixed-width integers and
one of the four byte-order tags NumPy produces. -/
def Dtype.ok (d : Dtype) : Bool :=
  (d.itemsize == 1 || d.itemsize == 2 || d.itemsize == 4 || d.itemsize == 8) &&
    (d.border == '=' || d.border == '<' || d.border == '>' || d.border == '|')

/-- Encoding after decoding is the identity on in-range logical values. -/
theorem fromU_toU (d : Dtype) (v : Int) (hw : 1 ≤ d.itemsize) (h : d.inRange v) :
    fromU d.itemsize d.signed (toU d.itemsize v) = v := by
  have hsplit : 8 * d.itemsize - 1 + 1 = 8 * d.itemsize := by omega
  have hpow : (2 : Int) ^ (8 * d.itemsize) = 2 ^ (8 * d.itemsize - 1) * 2 := by
    rw [← pow_succ, hsplit]
  have hpowN : (2 : Nat) ^ (8 * d.itemsize) = 2 ^ (8 * d.itemsize - 1) * 2 := by
    rw [← pow_succ, hsplit]
  have hcast : ((2 ^ (8 * d.itemsize - 1) : Nat) : Int) = (2 : Int) ^ (8 * d.itemsize - 1) := by
    push_cast; ring
  have ha : (0 : Int) < 2 ^ (8 * d.itemsize - 1) := by positivity
  have hM : (0 : Int) < 2 ^ (8 * d.itemsize) := by positivity
  unfold Dtype.inRange at h
  unfold fromU toU
  cases hs : d.signed with
  | true =>
    rw [hs] at h
    rw [if_pos rfl, decide_eq_true_eq] at h
    obtain ⟨hlo, hhi⟩ := h
    by_cases hneg : v < 0
    · have hmod : v % ((2 : Int) ^ (8 * d.itemsize)) = v + 2 ^ (8 * d.itemsize) := by
        have h1 : (v + 2 ^ (8 * d.itemsize)) % ((2 : Int) ^ (8 * d.itemsize))
            = v % ((2 : Int) ^ (8 * d.itemsize)) := by
          have h0 :=
            Int.add_mul_emod_self_left (a := v) (b := (2 : Int) ^ (8 * d.itemsize)) (c := 1)
          rw [mul_one] at h0
          exact h0
        rw [← h1, Int.emod_eq_of_lt (by omega) (by omega)]
      rw [hmod]
      have hge : (2 : Nat) ^ (8 * d.itemsize - 1) ≤ (v + (2 : Int) ^ (8 * d.itemsize)).toNat := by
        omega
      simp only [Bool.true_and, decide_eq_true_eq]
      rw [if_pos hge]
      omega
    · have hmod : v % ((2 : Int) ^ (8 * d.itemsize)) = v := by
        rw [Int.emod_eq_of_lt (by omega) (by omega)]
      rw [hmod]
      have hlt : ¬ ((2 : Nat) ^ (8 * d.itemsize - 1) ≤ v.toNat) := by omega
      simp only [Bool.true_and, decide_eq_true_eq]
      rw [if_neg hlt]
      omega
  | false =>
    rw [hs] at h
    rw [if_neg (by simp)] at h
    rw [decide_eq_true_eq] at h
    obtain ⟨hlo, hhi⟩ := h
    have hmod : v % ((2 : Int) ^ (8 * d.itemsize)) = v := by
      rw [Int.emod_eq_of_lt (by omega) (by omega)]
    rw [hmod]
    rw [if_neg (by simp)]
    omega

/-! ## NumPy arrays

An array is represented by its logical element values, already flattened in
row-major (C) order, together with its dtype and shape.  The bytes the array
occupies in memory are determined by the dtype's byte-order tag and the host
byte order (`sys.byteorder`). -/

/-- The value of Python's `sys.byteorder` (documented to be `big` or
`little`). -/
inductive SysByteOrder where
  | big
  | little
deriving DecidableEq, Repr

/-- A NumPy `ndarray` over a fixed-width integer dtype: logical element values
in row-major flattened order plus dtype and shape. -/
structure NDArray where
  dtype : Dtype
  shape : List Nat
  data : List Int
deriving DecidableEq, Repr

instance : Inhabited NDArray := ⟨⟨⟨false, 1, '|'⟩, [0], []⟩⟩

/-- Whether the byte-order tag resolves to big-endian storage on the given
host: tag `>` is big, tag `=` is the host order, everything else is
little-endian / single-byte. -/
def resolvedBig (host : SysByteOrder) (border : Char) : Bool :=
  border == '>' || (border == '=' && host == SysByteOrder.big)

/-- The memory bytes of one element (in storage order). -/
def elemMemBytes (big : Bool) (w : Nat) (v : Int) : List Nat :=
  if big then (leBytesU w (toU w v)).reverse else leBytesU w (toU w v)

/-- The logical value of one element's memory bytes. -/
def elemFromMem (big : Bool) (w : Nat) (signed : Bool) (bs : List Nat) : Int :=
  fromU w signed (natFromLE (if big then bs.reverse else bs))

/-- `ndarray.tobytes(order="C")`: the raw memory bytes of the (already
row-major) elements. -/
def NDArray.tobytes (host : SysByteOrder) (a : NDArray) : List Nat :=
  a.data.flatMap (elemMemBytes (resolvedBig host a.dtype.border) a.dtype.itemsize)

/-- `ndarray.byteswap(inplace=False)`: a fresh array whose memory bytes are the
element-wise reversal of the original's; the dtype (hence the byte-order tag)
is unchanged, so the logical values are reinterpreted. -/
def NDArray.byteswap (host : SysByteOrder) (a : NDArray) : NDArray :=
  let big := resolvedBig host a.dtype.border
  { a with data := a.data.map (fun v =>
      elemFromMem big a.dtype.itemsize a.dtype.signed
        ((elemMemBytes big a.dtype.itemsize v).reverse)) }

/-- `ndarray.flatten()` on the row-major value representation. -/
def NDArray.flatten (a : NDArray) : NDArray :=
  { a with shape := [a.data.length] }

/-- `np.can_cast(from_dtype, to_dtype, casting="safe")` restricted to the
fixed-width integer dtypes: safe iff the value range of the source is
contained in the value range of the destination.  The byte-order tag is
irrelevant. -/
def canCastSafe (src dst : Dtype) : Bool :=
  if src.signed == dst.signed then src.itemsize ≤ dst.itemsize
  else if !src.signed then src.itemsize < dst.itemsize
  else false

/-- `np.array(value, dtype=dst)` for a safely castable `value`: a fresh array
with the destination dtype and unchanged logical values. -/
def NDArray.castTo (dst : Dtype) (a : NDArray) : NDArray :=
  { dtype := dst, shape := a.shape, data := a.data }

/-- All elements are within the dtype's range, and the width is positive. -/
def NDArray.ok (a : NDArray) : Bool :=
  1 ≤ a.dtype.itemsize && a.data.all a.dtype.inRange

/-- Safe casts only widen value ranges. -/
theorem inRange_of_canCastSafe (src dst : Dtype) (v : Int)
    (hc : canCastSafe src dst = true) (hw : 1 ≤ src.itemsize)
    (h : src.inRange v) : dst.inRange v = true := by
  have hmono : ∀ m n : Nat, m ≤ n → (2 : Int) ^ m ≤ 2 ^ n := fun m n hmn =>
    pow_le_pow_right₀ (by omega) hmn
  unfold canCastSafe at hc
  unfold Dtype.inRange at h ⊢
  rcases hsrc : src.signed with _ | _ <;> rcases hdst : dst.signed with _ | _ <;>
      simp only [hsrc, hdst] at hc h ⊢ <;>
      simp only [beq_self_eq_true, Bool.not_false, Bool.not_true, if_true, if_false,
        beq_iff_eq, Bool.false_eq_true, Bool.true_eq_false, reduceCtorEq,
        decide_eq_true_eq, reduceIte] at hc h ⊢
  · exact ⟨h.1, lt_of_lt_of_le h.2 (hmono _ _ (by omega))⟩
  · have hpos : (0 : Int) < 2 ^ (8 * dst.itemsize - 1) := by positivity
    have h2 : (2 : Int) ^ (8 * src.itemsize) ≤ 2 ^ (8 * dst.itemsize - 1) :=
      hmono _ _ (by omega)
    exact ⟨by omega, by omega⟩
  · have h2 : (2 : Int) ^ (8 * src.itemsize - 1) ≤ 2 ^ (8 * dst.itemsize - 1) :=
      hmono _ _ (by omega)
    exact ⟨by omega, by omega⟩

/-! ## Byte-order normalization (lines 152–173 of the encoder) -/

/-- The errors the writer can raise.  `typeMismatch` is the `ValueError` of the
failed safe-cast check, `unexpectedByteOrder` the `ValueError` of the
byte-order match's defensive branch, `missingAttribute` the `KeyError` of a
value lookup, and `writeAfterClose` the spec's fatal misuse of calling `write`
on a closed writer. -/
inductive EncodeError where
  | typeMismatch
  | unexpectedByteOrder
  | missingAttribute
  | writeAfterClose
deriving DecidableEq, Repr

/-- The byte-order match of `save_numpy_vector_as_bytearray`: tag `=` consults
`sys.byteorder` and byte-swaps on a big-endian host, tag `>` byte-swaps, tags
`<` and `|` pass through, and any other tag raises.  (The source's inner
defensive branch for a `sys.byteorder` outside {big, little} is not
representable: `SysByteOrder` has exactly the two documented values.) -/
def ensureLittleEndian (host : SysByteOrder) (value : NDArray) :
    Except EncodeError NDArray :=
  if value.dtype.border = '=' then
    match host with
    | .big => .ok (value.byteswap host)
    | .little => .ok value
  else if value.dtype.border = '>' then .ok (value.byteswap host)
  else if value.dtype.border = '<' ∨ value.dtype.border = '|' then .ok value
  else .error .unexpectedByteOrder

theorem pow256 (w : Nat) : (256 : Nat) ^ w = 2 ^ (8 * w) := by
  rw [show (256 : Nat) = 2 ^ 8 from rfl, ← pow_mul]

/-- A byte-swapped element of a big-endian array stores the little-endian
bytes of the original logical value. -/
theorem byteswap_big_elem (w : Nat) (s : Bool) (v : Int) :
    elemMemBytes true w (elemFromMem true w s ((elemMemBytes true w v).reverse))
      = leBytesU w (toU w v) := by
  unfold elemMemBytes elemFromMem
  simp only [if_true, List.reverse_reverse]
  have hlt : ∀ b ∈ (leBytesU w (toU w v)).reverse, b < 256 := by
    intro b hb
    rw [List.mem_reverse] at hb
    exact leBytesU_lt _ _ b hb
  have hlen : (leBytesU w (toU w v)).reverse.length = w := by simp
  have hsmall : natFromLE (leBytesU w (toU w v)).reverse < 2 ^ (8 * w) := by
    have := natFromLE_lt _ hlt
    rw [hlen, pow256] at this
    exact this
  have hR := leBytesU_natFromLE ((leBytesU w (toU w v)).reverse) hlt
  rw [hlen] at hR
  rw [toU_fromU w s _ hsmall, hR]
  simp

/-- Byte-order normalization of an array with one of the four NumPy tags
succeeds, preserves dtype, shape and element count, and yields an array whose
raw memory bytes are the little-endian bytes of the logical values —
regardless of the host byte order and of the tag. -/
theorem ensureLittleEndian_tobytes (host : SysByteOrder) (a : NDArray)
    (hb : a.dtype.border = '=' ∨ a.dtype.border = '<' ∨ a.dtype.border = '>' ∨
      a.dtype.border = '|') :
    ∃ a2, ensureLittleEndian host a = .ok a2 ∧ a2.dtype = a.dtype ∧
      a2.shape = a.shape ∧ a2.data.length = a.data.length ∧
      a2.tobytes host =
        a.data.flatMap (fun v => leBytesU a.dtype.itemsize (toU a.dtype.itemsize v)) := by
  have hswap : resolvedBig host a.dtype.border = true →
      ∃ a2, NDArray.byteswap host a = a2 ∧ a2.dtype = a.dtype ∧ a2.shape = a.shape ∧
        a2.data.length = a.data.length ∧
        a2.tobytes host =
          a.data.flatMap (fun v => leBytesU a.dtype.itemsize (toU a.dtype.itemsize v)) := by
    intro hbig
    refine ⟨NDArray.byteswap host a, rfl, rfl, rfl, List.length_map _ _, ?_⟩
    unfold NDArray.tobytes NDArray.byteswap
    simp only [hbig]
    rw [List.flatMap_map]
    congr 1
    funext v
    exact byteswap_big_elem a.dtype.itemsize a.dtype.signed v
  have hkeep : resolvedBig host a.dtype.border = false →
      a.tobytes host =
        a.data.flatMap (fun v => leBytesU a.dtype.itemsize (toU a.dtype.itemsize v)) := by
    intro hlil
    unfold NDArray.tobytes
    congr 1
    funext v
    simp [elemMemBytes, hlil]
  unfold ensureLittleEndian
  rcases hb with hb | hb | hb | hb <;> rw [hb]
  · cases host with
    | big =>
      have hbig : resolvedBig SysByteOrder.big a.dtype.border = true := by
        simp [resolvedBig, hb]
      obtain ⟨a2, he, h1, h2, h3, h4⟩ := hswap hbig
      exact ⟨a2, by simp [he], h1, h2, h3, h4⟩
    | little =>
      have hlil : resolvedBig SysByteOrder.little a.dtype.border = false := by
        simp [resolvedBig, hb]
      exact ⟨a, by simp, rfl, rfl, rfl, hkeep hlil⟩
  · have hlil : resolvedBig host a.dtype.border = false := by simp [resolvedBig, hb]
    exact ⟨a, by simp [hb], rfl, rfl, rfl, hkeep hlil⟩
  · have hbig : resolvedBig host a.dtype.border = true := by simp [resolvedBig, hb]
    obtain ⟨a2, he, h1, h2, h3, h4⟩ := hswap hbig
    exact ⟨a2, by simp [hb, he], h1, h2, h3, h4⟩
  · have hlil : resolvedBig host a.dtype.border = false := by simp [resolvedBig, hb]
    exact ⟨a, by simp [hb], rfl, rfl, rfl, hkeep hlil⟩

/-! ## The buffer assembler (FlatBuffers `Builder`)

Modelled from the spec: the buffer assembler collaborator (the FlatBuffers
Python `Builder`, an external dependency not under `src/`) per spec §6 and §9:
a zero-copy offset-table builder that grows its backing storage from the end
toward the beginning.  `buf` is the written region, listed *forward* (index 0
is the byte at the cursor, the last element is the final byte of storage), so
every write prepends to `buf` and `Builder.offset` — the library's
`Offset() = len(Bytes) - Head()` — is `buf.length`.  Stored cross-references
are relative offsets exactly as the reference builder computes them; vtables
are deduplicated through `vtables` just as the reference builder does.  The
library's usage assertions (`nested` flags, bounds checks) and the physical
doubling of the backing array are not observable in `Output()` and are
omitted. -/

structure Builder where
  buf : List Nat
  minalign : Nat
  vectorNumElems : Nat
  objectEnd : Nat
  currentVTable : List Nat
  vtables : List Nat
deriving DecidableEq, Repr

namespace Builder

/-- `flatbuffers.Builder(0)`. -/
def init : Builder := ⟨[], 1, 0, 0, [], []⟩

/-- `Offset()`: distance of the cursor from the end of the buffer. -/
def offset (b : Builder) : Nat := b.buf.length

/-- Place a 32-bit little-endian value at the cursor (no alignment prep). -/
def place32 (b : Builder) (x : Nat) : Builder := { b with buf := leBytesU 4 x ++ b.buf }

/-- Place a 16-bit little-endian value at the cursor (no alignment prep). -/
def place16 (b : Builder) (x : Nat) : Builder := { b with buf := leBytesU 2 x ++ b.buf }

/-- Zero bytes needed ahead of `additional` pending bytes so that the write
ends `size`-aligned (measured from the buffer end, as the library does). -/
def padLen (size o : Nat) : Nat := (size - o % size) % size

/-- `Prep(size, additionalBytes)`: raise `minalign` and pad with zeros. -/
def prep (b : Builder) (size additional : Nat) : Builder :=
  { b with minalign := max b.minalign size,
           buf := List.replicate (padLen size (b.offset + additional)) 0 ++ b.buf }

/-- `StartVector(elemSize, numElems, alignment)`. -/
def startVector (b : Builder) (elemSize numElems alignment : Nat) : Builder :=
  let b := { b with vectorNumElems := numElems }
  let b := b.prep 4 (elemSize * numElems)
  b.prep alignment (elemSize * numElems)

/-- `EndVector()`: place the element count recorded by `StartVector` (or
re-assigned through `vectorNumElems`) and return the vector's offset. -/
def endVector (b : Builder) : Builder × Nat :=
  let b := b.place32 b.vectorNumElems
  (b, b.offset)

/-- `PrependUOffsetTRelative(off)`: prep, then place the relative forward
distance `Offset() - off + 4`. -/
def prependUOffsetTRelative (b : Builder) (off : Nat) : Builder :=
  let b := b.prep 4 0
  b.place32 (b.offset - off + 4)

/-- `StartObject(numfields)`. -/
def startObject (b : Builder) (numfields : Nat) : Builder :=
  { b with currentVTable := List.replicate numfields 0, objectEnd := b.offset }

/-- `Slot(slotnum)`. -/
def slot (b : Builder) (slotnum : Nat) : Builder :=
  { b with currentVTable := b.currentVTable.set slotnum b.offset }

/-- `PrependUOffsetTRelativeSlot(o, x, d)`. -/
def prependUOffsetTRelativeSlot (b : Builder) (o x d : Nat) : Builder :=
  if x ≠ d then (b.prependUOffsetTRelative x).slot o else b

/-- `PrependSOffsetTRelative(off)` (used with `off = 0` as the vtable
placeholder). -/
def prependSOffsetTRelative (b : Builder) (off : Nat) : Builder :=
  let b := b.prep 4 0
  b.place32 (b.offset - off + 4)

/-- `PrependVOffsetT(x)`. -/
def prependVOffsetT (b : Builder) (x : Nat) : Builder :=
  (b.prep 2 0).place16 x

/-- The 32-bit two's-complement bit pattern of a signed offset. -/
def i32bits (s : Int) : Nat := (s % ((2 : Int) ^ 32)).toNat

/-- Overwrite the four bytes at end-distance `d` (the in-place patch
`encode.Write(packer.soffset, ...)` of `WriteVtable`). -/
def patch32end (b : Builder) (d : Nat) (x : Nat) : Builder :=
  let i := b.buf.length - d
  let bs := leBytesU 4 x
  { b with buf := ((((b.buf.set i (bs.getD 0 0)).set (i + 1) (bs.getD 1 0)).set
      (i + 2) (bs.getD 2 0)).set (i + 3) (bs.getD 3 0)) }

end Builder

/-- Byte of a buffer at distance `d` from its end (`d = 1` is the last byte).
Positions written by the backward-growing builder keep this distance forever. -/
def endByte (buf : List Nat) (d : Nat) : Nat := buf.getD (buf.length - d) 0

/-- Little-endian 16-bit read at end-distance `d` (of the value's first
byte). -/
def readU16end (buf : List Nat) (d : Nat) : Nat :=
  endByte buf d + 256 * endByte buf (d - 1)

/-- Little-endian 32-bit read at end-distance `d` (of the value's first
byte). -/
def readU32end (buf : List Nat) (d : Nat) : Nat :=
  endByte buf d + 256 * endByte buf (d - 1) + 65536 * endByte buf (d - 2) +
    16777216 * endByte buf (d - 3)

/-- Signed 32-bit read (two's complement). -/
def readI32end (buf : List Nat) (d : Nat) : Int :=
  let u := readU32end buf d
  if 2 ^ 31 ≤ u then (u : Int) - 2 ^ 32 else (u : Int)

namespace Builder

/-- Trailing-zero trimming of the pending vtable (`WriteVtable`'s loop). -/
def trimTrailingZeros : List Nat → List Nat
  | [] => []
  | x :: xs =>
    match trimTrailingZeros xs with
    | [] => if x = 0 then [] else [x]
    | ys => x :: ys

/-- `vtableEqual(a, objectStart, vt2)` reading the stored vtable at
end-distance `vo` of `buf`. -/
def vtableEqualB (buf : List Nat) (a : List Nat) (objectStart : Nat) (vo : Nat) : Bool :=
  let vt2Len := readU16end buf vo
  if a.length * 2 ≠ vt2Len - 4 then false
  else (List.range a.length).all fun i =>
    let x := readU16end buf (vo - 4 - 2 * i)
    let elem := a.getD i 0
    (x == 0 && elem == 0) || ((x : Int) == (objectStart : Int) - (elem : Int))

/-- `WriteVtable()`: prepend the placeholder, search `vtables` for a
structurally equal vtable, then either point the object at the existing
vtable or write a fresh one; returns the object's offset. -/
def writeVtable (b : Builder) : Builder × Nat :=
  let b := b.prependSOffsetTRelative 0
  let objectOffset := b.offset
  let trimmed := trimTrailingZeros b.currentVTable
  match b.vtables.find? (fun vo => vtableEqualB b.buf trimmed objectOffset vo) with
  | some existing =>
    let b := b.patch32end objectOffset (i32bits ((existing : Int) - (objectOffset : Int)))
    ({ b with currentVTable := [] }, objectOffset)
  | none =>
    let b := trimmed.reverse.foldl
      (fun bb off => bb.prependVOffsetT (if off ≠ 0 then objectOffset - off else 0)) b
    let b := b.prependVOffsetT (objectOffset - b.objectEnd)
    let b := b.prependVOffsetT ((trimmed.length + 2) * 2)
    let b := b.patch32end objectOffset (i32bits ((b.offset : Int) - (objectOffset : Int)))
    ({ b with currentVTable := [], vtables := b.vtables ++ [b.offset] }, objectOffset)

/-- `EndObject()`. -/
def endObject (b : Builder) : Builder × Nat := b.writeVtable

/-- `Finish(rootTable)`. -/
def finish (b : Builder) (rootTable : Nat) : Builder :=
  let b := b.prep b.minalign 4
  b.prependUOffsetTRelative rootTable

end Builder

/-! ## Reading at end-distances: stability and front reads -/

theorem endByte_append (p buf : List Nat) (d : Nat) (h : d ≤ buf.length) :
    endByte (p ++ buf) d = endByte buf d := by
  unfold endByte
  rw [List.length_append,
    show p.length + buf.length - d = p.length + (buf.length - d) from by omega,
    List.getD_append_right p buf 0 _ (by omega)]
  congr 1
  omega

theorem readU16end_append (p buf : List Nat) (d : Nat) (h : d ≤ buf.length) :
    readU16end (p ++ buf) d = readU16end buf d := by
  unfold readU16end
  rw [endByte_append p buf d h, endByte_append p buf (d - 1) (by omega)]

theorem readU32end_append (p buf : List Nat) (d : Nat) (h : d ≤ buf.length) :
    readU32end (p ++ buf) d = readU32end buf d := by
  unfold readU32end
  rw [endByte_append p buf d h, endByte_append p buf (d - 1) (by omega),
    endByte_append p buf (d - 2) (by omega), endByte_append p buf (d - 3) (by omega)]

theorem readI32end_append (p buf : List Nat) (d : Nat) (h : d ≤ buf.length) :
    readI32end (p ++ buf) d = readI32end buf d := by
  unfold readI32end
  rw [readU32end_append p buf d h]

theorem endByte_front (l buf : List Nat) (i : Nat) (h : i < l.length) :
    endByte (l ++ buf) (l.length + buf.length - i) = l.getD i 0 := by
  unfold endByte
  rw [List.length_append,
    show l.length + buf.length - (l.length + buf.length - i) = i from by omega]
  exact List.getD_append l buf 0 i h

theorem leBytesU4_explicit (x : Nat) :
    leBytesU 4 x = [x % 256, x / 256 % 256, x / 256 / 256 % 256, x / 256 / 256 / 256 % 256] := by
  simp [leBytesU]

theorem leBytesU2_explicit (x : Nat) :
    leBytesU 2 x = [x % 256, x / 256 % 256] := by
  simp [leBytesU]

theorem digits4 (x : Nat) :
    x % 256 + 256 * (x / 256 % 256) + 65536 * (x / 256 / 256 % 256) +
      16777216 * (x / 256 / 256 / 256 % 256) = x % 2 ^ 32 := by
  omega

theorem digits2 (x : Nat) :
    x % 256 + 256 * (x / 256 % 256) = x % 2 ^ 16 := by
  omega

/-- Reading a freshly placed 32-bit value. -/
theorem readU32end_front (x : Nat) (buf : List Nat) :
    readU32end (leBytesU 4 x ++ buf) (buf.length + 4) = x % 2 ^ 32 := by
  have hlen : (leBytesU 4 x).length = 4 := by simp
  have e0 := endByte_front (leBytesU 4 x) buf 0 (by omega)
  have e1 := endByte_front (leBytesU 4 x) buf 1 (by omega)
  have e2 := endByte_front (leBytesU 4 x) buf 2 (by omega)
  have e3 := endByte_front (leBytesU 4 x) buf 3 (by omega)
  rw [hlen] at e0 e1 e2 e3
  rw [show (4 : Nat) + buf.length - 0 = buf.length + 4 from by omega] at e0
  rw [show (4 : Nat) + buf.length - 1 = buf.length + 4 - 1 from by omega] at e1
  rw [show (4 : Nat) + buf.length - 2 = buf.length + 4 - 2 from by omega] at e2
  rw [show (4 : Nat) + buf.length - 3 = buf.length + 4 - 3 from by omega] at e3
  unfold readU32end
  rw [e0, e1, e2, e3, leBytesU4_explicit]
  simp only [List.getD_cons_zero, List.getD_cons_succ]
  exact digits4 x

/-- Reading a freshly placed 16-bit value. -/
theorem readU16end_front (x : Nat) (buf : List Nat) :
    readU16end (leBytesU 2 x ++ buf) (buf.length + 2) = x % 2 ^ 16 := by
  have hlen : (leBytesU 2 x).length = 2 := by simp
  have e0 := endByte_front (leBytesU 2 x) buf 0 (by omega)
  have e1 := endByte_front (leBytesU 2 x) buf 1 (by omega)
  rw [hlen] at e0 e1
  rw [show (2 : Nat) + buf.length - 0 = buf.length + 2 from by omega] at e0
  rw [show (2 : Nat) + buf.length - 1 = buf.length + 2 - 1 from by omega] at e1
  unfold readU16end
  rw [e0, e1, leBytesU2_explicit]
  simp only [List.getD_cons_zero, List.getD_cons_succ]
  exact digits2 x

/-! ## The shard writer (`shard_writer_flatbuffer.py`) -/

/-- An attribute descriptor of the schema (`sedpack.io.metadata.Attribute`):
name, declared dtype, declared shape; consumed read-only. -/
structure Attribute where
  name : String
  dtype : Dtype
  shape : List Nat
deriving DecidableEq, Repr

/-- The part of `DatasetStructure` the writer reads. -/
structure DatasetStructure where
  saved_data_description : List Attribute
deriving DecidableEq, Repr

/-- `ExampleT`: the caller's mapping from attribute name to value.  A Python
`dict` has unique keys; only `values[name]` lookups are performed, so the
association-list lookup is the faithful interface. -/
abbrev ExampleT : Type := List (String × NDArray)

namespace fbapi

/-- Modelled from the spec: the accessors autogenerated from
`src/sedpack/io/flatbuffer/shard.fbs` (not under `src/`).  Per the spec's
on-disk format, `Attribute`, `Example` and `Shard` are records with exactly
one child each (a byte vector, a vector of attributes, a vector of examples),
so each `...Start` opens a one-field record, each `...Add...` fills slot 0,
and the two `...StartXVector` functions open vectors of 4-byte offsets. -/
def AttributeStart (builder : Builder) : Builder := builder.startObject 1

def AttributeAddAttributeBytes (builder : Builder) (attributeBytes : Nat) : Builder :=
  builder.prependUOffsetTRelativeSlot 0 attributeBytes 0

def AttributeEnd (builder : Builder) : Builder × Nat := builder.endObject

def ExampleStartAttributesVector (builder : Builder) (numElems : Nat) : Builder :=
  builder.startVector 4 numElems 4

def ExampleStart (builder : Builder) : Builder := builder.startObject 1

def ExampleAddAttributes (builder : Builder) (attributes : Nat) : Builder :=
  builder.prependUOffsetTRelativeSlot 0 attributes 0

def ExampleEnd (builder : Builder) : Builder × Nat := builder.endObject

def ShardStartExamplesVector (builder : Builder) (numElems : Nat) : Builder :=
  builder.startVector 4 numElems 4

def ShardStart (builder : Builder) : Builder := builder.startObject 1

def ShardAddExamples (builder : Builder) (examples : Nat) : Builder :=
  builder.prependUOffsetTRelativeSlot 0 examples 0

def ShardEnd (builder : Builder) : Builder × Nat := builder.endObject

end fbapi

/-- `ShardWriterFlatBuffer.save_numpy_vector_as_bytearray` (lines 101–198).
The out-of-place allocation behaviour of `np.copy(...).flatten()`,
`np.array(...)` and `byteswap(inplace=False)` is modelled separately on an
array store below; here the value pipeline is pure.  The head move plus slice
assignment (lines 187–191) writes the serialized bytes into the region
`StartVector` reserved, i.e. prepends them at the cursor. -/
def save_numpy_vector_as_bytearray (host : SysByteOrder) (builder : Builder)
    (attr : Attribute) (value : NDArray) : Builder × Except EncodeError Nat :=
  let value := value.flatten
  if ¬ canCastSafe value.dtype attr.dtype then (builder, .error .typeMismatch)
  else
    let value := value.castTo attr.dtype
    match ensureLittleEndian host value with
    | .error e => (builder, .error e)
    | .ok value =>
      let byte_representation := value.tobytes host
      let length := byte_representation.length
      let b := builder.startVector 1 length value.dtype.itemsize
      let b := { b with buf := byte_representation ++ b.buf }
      let b := { b with vectorNumElems := length }
      let (b, off) := b.endVector
      (b, .ok off)

/-- The encoder with the re-assignment `builder.vectorNumElems = length`
(line 195) removed — the "clean reimplementation" of the spec's open
question, stated from the spec's words for comparison with the source
embedding above. -/
def save_numpy_vector_no_reassign (host : SysByteOrder) (builder : Builder)
    (attr : Attribute) (value : NDArray) : Builder × Except EncodeError Nat :=
  let value := value.flatten
  if ¬ canCastSafe value.dtype attr.dtype then (builder, .error .typeMismatch)
  else
    let value := value.castTo attr.dtype
    match ensureLittleEndian host value with
    | .error e => (builder, .error e)
    | .ok value =>
      let byte_representation := value.tobytes host
      let length := byte_representation.length
      let b := builder.startVector 1 length value.dtype.itemsize
      let b := { b with buf := byte_representation ++ b.buf }
      let (b, off) := b.endVector
      (b, .ok off)

/-- The writer's mutable state: the schema, the in-memory list of example
offsets, and the lazily allocated builder. -/
structure ShardWriterFlatBuffer where
  dataset_structure : DatasetStructure
  examples : List Nat
  builder : Option Builder
deriving DecidableEq, Repr

/-- A fresh writer (`__init__`): empty example list, no builder yet. -/
def ShardWriterFlatBuffer.mk0 (ds : DatasetStructure) : ShardWriterFlatBuffer :=
  ⟨ds, [], none⟩

/-- The attribute loop of `_write` (lines 74–86): iterate the schema in
order, look the value up by name, encode it, wrap it in an `Attribute`
record, and collect the record offsets.  An exception leaves the builder with
all mutations made so far. -/
def writeLoop (host : SysByteOrder) (b : Builder) (schema : List Attribute)
    (values : ExampleT) : Builder × Except EncodeError (List Nat) :=
  match schema with
  | [] => (b, .ok [])
  | attr :: rest =>
    match List.lookup attr.name values with
    | none => (b, .error .missingAttribute)
    | some v =>
      match save_numpy_vector_as_bytearray host b attr v with
      | (b1, .error e) => (b1, .error e)
      | (b1, .ok attribute_bytes) =>
        let b2 := fbapi.AttributeStart b1
        let b3 := fbapi.AttributeAddAttributeBytes b2 attribute_bytes
        let p := fbapi.AttributeEnd b3
        match writeLoop host p.1 rest values with
        | (b5, .error e) => (b5, .error e)
        | (b5, .ok offs) => (b5, .ok (p.2 :: offs))

/-- `ShardWriterFlatBuffer._write` (lines 62–99).  The first component of the
result is the writer as left behind (on an exception the builder keeps the
bytes written so far — nothing is rolled back — but the example list is only
appended to at the very end). -/
def ShardWriterFlatBuffer._write (host : SysByteOrder) (self : ShardWriterFlatBuffer)
    (values : ExampleT) : ShardWriterFlatBuffer × Except EncodeError Unit :=
  let b := self.builder.getD Builder.init
  match writeLoop host b self.dataset_structure.saved_data_description values with
  | (b, .error e) => ({ self with builder := some b }, .error e)
  | (b, .ok saved_attributes) =>
    let b := fbapi.ExampleStartAttributesVector b saved_attributes.length
    let b := saved_attributes.reverse.foldl
      (fun bb off => bb.prependUOffsetTRelative off) b
    let q := b.endVector
    let b := fbapi.ExampleStart q.1
    let b := fbapi.ExampleAddAttributes b q.2
    let r := fbapi.ExampleEnd b
    ({ self with builder := some r.1, examples := self.examples ++ [r.2] }, .ok ())

/-- `ShardWriterFlatBuffer.close` (lines 200–229).  The second component is
the byte buffer handed to the compression collaborator's file sink (`none`
when no file is created).  On every reachable state with a nonempty example
list the builder is present; `getD Builder.init` is never exercised
otherwise. -/
def ShardWriterFlatBuffer.close (self : ShardWriterFlatBuffer) :
    ShardWriterFlatBuffer × Option (List Nat) :=
  if self.examples = [] then (self, none)
  else
    let b := self.builder.getD Builder.init
    let b := fbapi.ShardStartExamplesVector b self.examples.length
    let b := self.examples.reverse.foldl
      (fun bb off => bb.prependUOffsetTRelative off) b
    let q := b.endVector
    let b := fbapi.ShardStart q.1
    let b := fbapi.ShardAddExamples b q.2
    let r := fbapi.ShardEnd b
    let b := r.1.finish r.2
    ({ self with builder := none }, some b.buf)

/-- Modelled from the spec: `ShardWriterBase` (`shard_writer_base.py`, not
under `src/`) — the public `write` is a fatal programming error once the
writer is closed ("single-pass, write-then-close, no reuse"); `close`
transitions to the terminal `Closed` state. -/
structure ShardWriter where
  inner : ShardWriterFlatBuffer
  closed : Bool
deriving DecidableEq, Repr

/-- Modelled from the spec: the public `write` asserts the writer is not
`Closed` before delegating to `_write`; the misuse is fatal and changes
nothing. -/
def ShardWriter.write (host : SysByteOrder) (self : ShardWriter) (values : ExampleT) :
    ShardWriter × Except EncodeError Unit :=
  if self.closed then (self, .error .writeAfterClose)
  else
    let p := self.inner._write host values
    ({ self with inner := p.1 }, p.2)

/-- Modelled from the spec: the public `close` delegates and enters the
terminal `Closed` state. -/
def ShardWriter.closePublic (self : ShardWriter) : ShardWriter × Option (List Nat) :=
  let p := self.inner.close
  (⟨p.1, true⟩, p.2)

/-! ## Decoding the finished buffer

The spec's decoder contract (§6) reads the file forward: the root offset at
position 0, tables through their vtables, vectors with a 32-bit length tag.
A byte at forward position `p` of an output of length `L` sits at end-distance
`L - p`, and a stored forward pointer with value `v` at end-distance `d`
targets end-distance `d - v`; the decoders below are phrased directly in
end-distances, which are exactly the builder's offsets. -/

/-- Decode the byte vector whose length tag starts at end-distance `d`. -/
def decodeByteVector (buf : List Nat) (d : Nat) : List Nat :=
  (List.range (readU32end buf d)).map (fun i => endByte buf (d - 4 - i))

/-- Decode a vector of 32-bit offsets: the end-distances its elements
target. -/
def decodeUVector (buf : List Nat) (d : Nat) : List Nat :=
  (List.range (readU32end buf d)).map
    (fun i => (d - 4 - 4 * i) - readU32end buf (d - 4 - 4 * i))

/-- Decode a table at end-distance `t`: follow its (signed) vtable link, read
the offset of field 0, and return the end-distance of the field's target;
`none` when the vtable marks the field absent. -/
def tableField0 (buf : List Nat) (t : Nat) : Option Nat :=
  let s := readI32end buf t
  let vt := ((t : Int) + s).toNat
  let fo := readU16end buf (vt - 4)
  if fo = 0 then none
  else
    let fpos := t - fo
    some (fpos - readU32end buf fpos)

/-- Decode a whole shard file: root record → vector of example records, each →
vector of attribute records, each → its raw byte vector. -/
def decodeShard (out : List Nat) : Option (List (List (List Nat))) := do
  let root := out.length - readU32end out out.length
  let exVec ← tableField0 out root
  (decodeUVector out exVec).mapM (fun e => do
    let av ← tableField0 out e
    (decodeUVector out av).mapM (fun aoff => do
      let bv ← tableField0 out aoff
      pure (decodeByteVector out bv)))

/-- The byte vector at end-distance `d` decodes to `bs` (with the bounds that
keep the fact stable under further writes). -/
def GoodByteVec (buf : List Nat) (d : Nat) (bs : List Nat) : Prop :=
  4 + bs.length ≤ d ∧ d ≤ buf.length ∧ readU32end buf d = bs.length ∧
    decodeByteVector buf d = bs

/-- The offset vector at end-distance `d` decodes to the targets `ts`. -/
def GoodUVec (buf : List Nat) (d : Nat) (ts : List Nat) : Prop :=
  4 + 4 * ts.length ≤ d ∧ d ≤ buf.length ∧ readU32end buf d = ts.length ∧
    decodeUVector buf d = ts

/-- The table at end-distance `t` decodes, with in-buffer vtable, to the
field target `target`. -/
def GoodTable (buf : List Nat) (t target : Nat) : Prop :=
  t ≤ buf.length ∧ 0 ≤ (t : Int) + readI32end buf t ∧
    ((t : Int) + readI32end buf t).toNat ≤ buf.length ∧
    tableField0 buf t = some target

/-- An `Attribute` record at `t` holding the byte vector `bs`. -/
def GoodAttr (buf : List Nat) (t : Nat) (bs : List Nat) : Prop :=
  ∃ bv, GoodTable buf t bv ∧ GoodByteVec buf bv bs

/-- An `Example` record at `t` holding, in order, attribute records with byte
vectors `bss`. -/
def GoodExample (buf : List Nat) (t : Nat) (bss : List (List Nat)) : Prop :=
  ∃ av ts, GoodTable buf t av ∧ GoodUVec buf av ts ∧
    List.Forall₂ (GoodAttr buf) ts bss

theorem decodeByteVector_append (p buf : List Nat) (d : Nat) (h : d ≤ buf.length) :
    decodeByteVector (p ++ buf) d = decodeByteVector buf d := by
  unfold decodeByteVector
  rw [readU32end_append p buf d h]
  exact List.map_congr_left (fun i _ => endByte_append p buf _ (by omega))

theorem decodeUVector_append (p buf : List Nat) (d : Nat) (h : d ≤ buf.length) :
    decodeUVector (p ++ buf) d = decodeUVector buf d := by
  unfold decodeUVector
  rw [readU32end_append p buf d h]
  exact List.map_congr_left (fun i _ => by rw [readU32end_append p buf _ (by omega)])

theorem GoodByteVec_append (p buf : List Nat) (d : Nat) (bs : List Nat)
    (h : GoodByteVec buf d bs) : GoodByteVec (p ++ buf) d bs := by
  obtain ⟨h1, h2, h3, h4⟩ := h
  exact ⟨h1, by simp only [List.length_append]; omega,
    by rw [readU32end_append p buf d h2]; exact h3,
    by rw [decodeByteVector_append p buf d h2]; exact h4⟩

theorem GoodUVec_append (p buf : List Nat) (d : Nat) (ts : List Nat)
    (h : GoodUVec buf d ts) : GoodUVec (p ++ buf) d ts := by
  obtain ⟨h1, h2, h3, h4⟩ := h
  exact ⟨h1, by simp only [List.length_append]; omega,
    by rw [readU32end_append p buf d h2]; exact h3,
    by rw [decodeUVector_append p buf d h2]; exact h4⟩

theorem GoodTable_append (p buf : List Nat) (t target : Nat)
    (h : GoodTable buf t target) : GoodTable (p ++ buf) t target := by
  obtain ⟨h1, h2, h3, h4⟩ := h
  have hi : readI32end (p ++ buf) t = readI32end buf t := readI32end_append p buf t h1
  refine ⟨by simp only [List.length_append]; omega, by rw [hi]; exact h2,
    by rw [hi]; simp only [List.length_append]; omega, ?_⟩
  unfold tableField0 at h4 ⊢
  simp only [hi]
  rw [readU16end_append p buf _ (by omega)]
  by_cases hfo : readU16end buf (((t : Int) + readI32end buf t).toNat - 4) = 0
  · simp only [hfo, if_true] at h4
    exact absurd h4 (by simp)
  · simp only [hfo, if_false] at h4 ⊢
    rw [readU32end_append p buf _ (by omega)]
    exact h4

theorem GoodAttr_append (p buf : List Nat) (t : Nat) (bs : List Nat)
    (h : GoodAttr buf t bs) : GoodAttr (p ++ buf) t bs := by
  obtain ⟨bv, h1, h2⟩ := h
  exact ⟨bv, GoodTable_append p buf t bv h1, GoodByteVec_append p buf bv bs h2⟩

theorem GoodExample_append (p buf : List Nat) (t : Nat) (bss : List (List Nat))
    (h : GoodExample buf t bss) : GoodExample (p ++ buf) t bss := by
  obtain ⟨av, ts, h1, h2, h3⟩ := h
  exact ⟨av, ts, GoodTable_append p buf t av h1, GoodUVec_append p buf av ts h2,
    h3.imp (fun {a b} ha => GoodAttr_append p buf a b ha)⟩

theorem mapM_of_forall₂ {α β : Type} (f : α → Option β) (xs : List α) (ys : List β)
    (h : List.Forall₂ (fun x y => f x = some y) xs ys) : xs.mapM f = some ys := by
  induction h with
  | nil => rfl
  | cons h1 _ ih => rw [List.mapM_cons, h1, ih]; rfl

/-! ## Characterizing the encoder -/

theorem padLen_spec (s o : Nat) (hs : 0 < s) : (o + Builder.padLen s o) % s = 0 := by
  unfold Builder.padLen
  rcases Nat.eq_zero_or_pos (o % s) with h | h
  · rw [h, Nat.sub_zero, Nat.mod_self, Nat.add_zero]
    exact h
  · have hlt : o % s < s := Nat.mod_lt _ hs
    have h1 : (s - o % s) % s = s - o % s := Nat.mod_eq_of_lt (by omega)
    rw [h1]
    have hdm := Nat.div_add_mod o s
    have h2 : o + (s - o % s) = s * (o / s) + s := by omega
    rw [h2, ← Nat.mul_succ]
    exact Nat.mul_mod_right s _

theorem padLen_lt (s o : Nat) (hs : 0 < s) : Builder.padLen s o < s := by
  unfold Builder.padLen
  exact Nat.mod_lt _ hs

theorem itemsize_cases (d : Dtype) (hd : d.ok = true) :
    d.itemsize = 1 ∨ d.itemsize = 2 ∨ d.itemsize = 4 ∨ d.itemsize = 8 := by
  unfold Dtype.ok at hd
  simp only [Bool.and_eq_true, Bool.or_eq_true, beq_iff_eq] at hd
  tauto

theorem border_cases (d : Dtype) (hd : d.ok = true) :
    d.border = '=' ∨ d.border = '<' ∨ d.border = '>' ∨ d.border = '|' := by
  unfold Dtype.ok at hd
  simp only [Bool.and_eq_true, Bool.or_eq_true, beq_iff_eq] at hd
  tauto

theorem flatMap_length_const (l : List Int) (w : Nat)
    (f : Int → List Nat) (hf : ∀ x, (f x).length = w) :
    (l.flatMap f).length = l.length * w := by
  induction l with
  | nil => simp
  | cons x xs ih =>
    rw [List.flatMap_cons, List.length_append, hf, ih, List.length_cons]
    ring

/-- The alignment padding the encoder inserts ahead of the payload: the two
`Prep` calls of `StartVector`, first to 4 for the length tag, then to the
item size.  A host-free quantity. -/
def vecPad (b : Builder) (attr : Attribute) (v : NDArray) : Nat :=
  Builder.padLen attr.dtype.itemsize
      (Builder.padLen 4 (b.buf.length + v.data.length * attr.dtype.itemsize) +
        b.buf.length + v.data.length * attr.dtype.itemsize) +
    Builder.padLen 4 (b.buf.length + v.data.length * attr.dtype.itemsize)

/-- The encoder on a safely castable value with a well-formed declared dtype:
it succeeds and prepends exactly `[length tag] [little-endian serialized
elements] [alignment padding]`, with the length tag equal to the byte length
(element count × item size), the data end 4-aligned and item-size-aligned,
and `minalign` raised to the item size.  The serialized bytes do not mention
the host byte order. -/
theorem saveVec_ok (host : SysByteOrder) (b : Builder) (attr : Attribute) (v : NDArray)
    (hd : attr.dtype.ok = true) (hc : canCastSafe v.dtype attr.dtype = true) :
    ∃ pad, pad = vecPad b attr v ∧
      save_numpy_vector_as_bytearray host b attr v =
        ({ b with
            buf := leBytesU 4 (v.data.length * attr.dtype.itemsize) ++
              (v.data.flatMap
                (fun x => leBytesU attr.dtype.itemsize (toU attr.dtype.itemsize x)) ++
              (List.replicate pad 0 ++ b.buf)),
            minalign := max (max b.minalign 4) attr.dtype.itemsize,
            vectorNumElems := v.data.length * attr.dtype.itemsize },
          .ok (b.buf.length + pad + v.data.length * attr.dtype.itemsize + 4)) ∧
      (b.buf.length + pad + v.data.length * attr.dtype.itemsize) % 4 = 0 ∧
      (b.buf.length + pad + v.data.length * attr.dtype.itemsize) %
        attr.dtype.itemsize = 0 ∧
      pad < 12 := by
  have hb : ((v.flatten).castTo attr.dtype).dtype.border = '=' ∨
      ((v.flatten).castTo attr.dtype).dtype.border = '<' ∨
      ((v.flatten).castTo attr.dtype).dtype.border = '>' ∨
      ((v.flatten).castTo attr.dtype).dtype.border = '|' := border_cases attr.dtype hd
  obtain ⟨a2, he, hdt, hsh, hlen, htb⟩ :=
    ensureLittleEndian_tobytes host ((v.flatten).castTo attr.dtype) hb
  have htb2 : a2.tobytes host =
      v.data.flatMap (fun x => leBytesU attr.dtype.itemsize (toU attr.dtype.itemsize x)) :=
    htb
  have hL : (a2.tobytes host).length = v.data.length * attr.dtype.itemsize := by
    rw [htb2]
    exact flatMap_length_const _ _ _ (fun x => by simp)
  have hwida : a2.dtype.itemsize = attr.dtype.itemsize := by
    rw [hdt]; simp [NDArray.castTo]
  have hwpos : 0 < attr.dtype.itemsize := by rcases itemsize_cases attr.dtype hd with h | h | h | h <;> omega
  refine ⟨Builder.padLen attr.dtype.itemsize
        (Builder.padLen 4 (b.buf.length + v.data.length * attr.dtype.itemsize) +
          b.buf.length + v.data.length * attr.dtype.itemsize) +
      Builder.padLen 4 (b.buf.length + v.data.length * attr.dtype.itemsize), rfl,
      ?_, ?_, ?_, ?_⟩
  · unfold save_numpy_vector_as_bytearray
    rw [if_neg (by simp [NDArray.flatten, hc])]
    dsimp only
    rw [he]
    simp only [Builder.startVector, Builder.prep, Builder.endVector, Builder.place32,
      Builder.offset, htb2, hwida, one_mul, List.length_append, List.length_replicate,
      flatMap_length_const v.data attr.dtype.itemsize _
        (fun x => leBytesU_length attr.dtype.itemsize (toU attr.dtype.itemsize x))]
    congr 1
    · congr 1
      rw [List.replicate_add, List.append_assoc]
    · congr 1
      simp only [leBytesU_length]
      omega
  · have h1 := padLen_spec 4 (b.buf.length + v.data.length * attr.dtype.itemsize) (by omega)
    have h2 := padLen_lt 4 (b.buf.length + v.data.length * attr.dtype.itemsize) (by omega)
    rcases itemsize_cases attr.dtype hd with h | h | h | h <;> rw [h] <;>
      simp only [Builder.padLen, h] at * <;> omega
  · have h1 := padLen_spec 4 (b.buf.length + v.data.length * attr.dtype.itemsize) (by omega)
    rcases itemsize_cases attr.dtype hd with h | h | h | h <;> rw [h] <;>
      simp only [Builder.padLen, h] at * <;> omega
  · have h2 := padLen_lt 4 (b.buf.length + v.data.length * attr.dtype.itemsize) (by omega)
    have h3 := padLen_lt attr.dtype.itemsize
      (Builder.padLen 4 (b.buf.length + v.data.length * attr.dtype.itemsize) +
        b.buf.length + v.data.length * attr.dtype.itemsize) hwpos
    rcases itemsize_cases attr.dtype hd with h | h | h | h <;> omega

/-- A failed safe-cast check errors with the builder argument untouched. -/
theorem saveVec_typeMismatch (host : SysByteOrder) (b : Builder) (attr : Attribute)
    (v : NDArray) (h : canCastSafe v.dtype attr.dtype = false) :
    save_numpy_vector_as_bytearray host b attr v = (b, .error .typeMismatch) := by
  unfold save_numpy_vector_as_bytearray
  rw [if_pos (by simp [NDArray.flatten, h])]

/-- Whatever the error, the encoder returns the builder unchanged: both raise
sites precede every builder mutation. -/
theorem saveVec_error_state (host : SysByteOrder) (b : Builder) (attr : Attribute)
    (v : NDArray) (e : EncodeError)
    (h : (save_numpy_vector_as_bytearray host b attr v).2 = .error e) :
    (save_numpy_vector_as_bytearray host b attr v).1 = b := by
  unfold save_numpy_vector_as_bytearray at h ⊢
  by_cases hc : canCastSafe (v.flatten).dtype attr.dtype
  · rw [if_neg (by simp [hc])] at h ⊢
    dsimp only at h ⊢
    rcases hE : ensureLittleEndian host ((v.flatten).castTo attr.dtype) with e' | a2
    · rfl
    · rw [hE] at h
      exact Except.noConfusion h
  · rw [if_pos (by simp [hc])]

/-- An erroring `_write` leaves the in-memory example list untouched. -/
theorem write_error_examples (host : SysByteOrder) (w : ShardWriterFlatBuffer)
    (values : ExampleT) (e : EncodeError)
    (h : (ShardWriterFlatBuffer._write host w values).2 = .error e) :
    ((ShardWriterFlatBuffer._write host w values).1).examples = w.examples := by
  unfold ShardWriterFlatBuffer._write at h ⊢
  dsimp only at h ⊢
  rcases hL : writeLoop host (w.builder.getD Builder.init)
      w.dataset_structure.saved_data_description values with ⟨b', r⟩
  rcases r with e' | offs
  · rfl
  · rw [hL] at h
    exact Except.noConfusion h

/-- C3: encoding a value whose dtype cannot be safely cast to the declared
dtype raises `TypeMismatch`; with a well-formed declared dtype it raises iff
the cast is unsafe; any raise happens before the builder is mutated (the
returned assembler state, hence its cursor, is the one passed in); and a
failed `_write` call adds no entry to the in-memory example list. -/
theorem C3_cast_rejection (host : SysByteOrder) (b : Builder) (attr : Attribute)
    (v : NDArray) (w : ShardWriterFlatBuffer) (values : ExampleT)
    (hd : attr.dtype.ok = true) :
    (canCastSafe v.dtype attr.dtype = false →
      save_numpy_vector_as_bytearray host b attr v = (b, .error .typeMismatch)) ∧
    ((∃ e, (save_numpy_vector_as_bytearray host b attr v).2 = .error e) ↔
      canCastSafe v.dtype attr.dtype = false) ∧
    (∀ e, (save_numpy_vector_as_bytearray host b attr v).2 = .error e →
      (save_numpy_vector_as_bytearray host b attr v).1 = b) ∧
    (∀ e, (ShardWriterFlatBuffer._write host w values).2 = .error e →
      ((ShardWriterFlatBuffer._write host w values).1).examples = w.examples) := by
  refine ⟨fun h => saveVec_typeMismatch host b attr v h, ⟨?_, ?_⟩, ?_, ?_⟩
  · rintro ⟨e, he⟩
    by_contra hcontra
    have hc : canCastSafe v.dtype attr.dtype = true := by
      cases h : canCastSafe v.dtype attr.dtype
      · exact absurd h hcontra
      · rfl
    obtain ⟨pad, -, heq, -, -, -⟩ := saveVec_ok host b attr v hd hc
    rw [heq] at he
    simp at he
  · intro h
    exact ⟨.typeMismatch, by rw [saveVec_typeMismatch host b attr v h]⟩
  · exact fun e => saveVec_error_state host b attr v e
  · exact fun e => write_error_examples host w values e

/-- C9: the re-assignment of `vectorNumElems` after the byte copy is a no-op:
the encoder with line 195 removed returns the identical builder (bytes,
cursor, every field) and the identical offset on every input. -/
theorem C9_reassign_noop (host : SysByteOrder) (b : Builder) (attr : Attribute)
    (v : NDArray) :
    save_numpy_vector_as_bytearray host b attr v =
      save_numpy_vector_no_reassign host b attr v := by
  unfold save_numpy_vector_as_bytearray save_numpy_vector_no_reassign
  by_cases hc : canCastSafe (v.flatten).dtype attr.dtype
  · rw [if_neg (by simp [hc]), if_neg (by simp [hc])]
    dsimp only
    rcases hE : ensureLittleEndian host ((v.flatten).castTo attr.dtype) with e' | a2
    · rfl
    · rfl
  · rw [if_pos (by simp [hc]), if_pos (by simp [hc])]

/-- C5: `close()` on an empty example list — zero successful writes, including
the case where the only attempted write failed — creates no file, finalizes
nothing, and leaves the writer state unchanged. -/
theorem C5_empty_shard (w : ShardWriterFlatBuffer) (host : SysByteOrder)
    (w0 : ShardWriterFlatBuffer) (values : ExampleT) (e : EncodeError)
    (hw : w.examples = [])
    (h0 : w0.examples = [])
    (hfail : (ShardWriterFlatBuffer._write host w0 values).2 = .error e) :
    ShardWriterFlatBuffer.close w = (w, none) ∧
    ShardWriterFlatBuffer.close ((ShardWriterFlatBuffer._write host w0 values).1) =
      ((ShardWriterFlatBuffer._write host w0 values).1, none) := by
  constructor
  · unfold ShardWriterFlatBuffer.close
    rw [if_pos hw]
  · have hex := write_error_examples host w0 values e hfail
    unfold ShardWriterFlatBuffer.close
    rw [if_pos (by rw [hex, h0])]

/-- C7 (spec-modelled: `ShardWriterBase` is not under `src/`): `close` puts
the writer in the terminal `Closed` state, and `write` on a closed writer is
the fatal misuse error, leaving the writer (builder and example list alike)
unchanged — no subsequent `write` can succeed or append. -/
theorem C7_write_after_close (w : ShardWriter) :
    ((ShardWriter.closePublic w).1.closed = true) ∧
    (∀ (host : SysByteOrder) (values : ExampleT), w.closed = true →
      ShardWriter.write host w values = (w, .error .writeAfterClose)) := by
  constructor
  · rfl
  · intro host values hcl
    unfold ShardWriter.write
    rw [if_pos hcl]

/-- C8: for every dtype tag among `=`, `>`, `<`, `|` the byte-order
normalization never raises `UnexpectedByteOrder` (the defensive branch is
unreachable for arrays the cast step can produce), a big-endian or
native-on-big-host value is byte-swapped exactly once, and every other value
passes through unswapped. -/
theorem C8_byteorder (host : SysByteOrder) (v : NDArray)
    (hb : v.dtype.border = '=' ∨ v.dtype.border = '<' ∨ v.dtype.border = '>' ∨
      v.dtype.border = '|') :
    (∀ e, ensureLittleEndian host v ≠ .error e) ∧
    ((v.dtype.border = '>' ∨ (v.dtype.border = '=' ∧ host = .big)) →
      ensureLittleEndian host v = .ok (v.byteswap host)) ∧
    ((v.dtype.border = '<' ∨ v.dtype.border = '|' ∨
        (v.dtype.border = '=' ∧ host = .little)) →
      ensureLittleEndian host v = .ok v) := by
  unfold ensureLittleEndian
  refine ⟨?_, ?_, ?_⟩
  · intro e
    rcases hb with h | h | h | h <;> rw [h] <;> cases host <;> simp
  · rintro (h | ⟨h, hh⟩)
    · rw [h]
      simp
    · rw [h, hh]
      simp
  · rintro (h | h | ⟨h, hh⟩)
    · rw [h]
      simp
    · rw [h]
      simp
    · rw [h, hh]
      simp

/-! ## The decode contract of the byte payload -/

/-- Split a byte string into `n` little-endian elements of width `w`. -/
def reinterpretAux (w : Nat) (signed : Bool) : Nat → List Nat → List Int
  | 0, _ => []
  | n + 1, bs => fromU w signed (natFromLE (bs.take w)) :: reinterpretAux w signed n (bs.drop w)

/-- Reinterpret a byte string as little-endian elements of width `w`
(the claim's decode step; the read-side inverse
`IterateShardFlatBuffer.decode_array` is not under `src/`, so this follows
the spec's words: little-endian elements of the declared type). -/
def reinterpretLE (w : Nat) (signed : Bool) (bs : List Nat) : List Int :=
  reinterpretAux w signed (bs.length / w) bs

/-- Modelled from the spec: the read-side `decode_array` contract —
reinterpret the bytes as little-endian elements of the declared dtype, then
reshape by the declared shape. -/
def decode_array (dt : Dtype) (shape : List Nat) (bs : List Nat) : Option NDArray :=
  let vals := reinterpretLE dt.itemsize dt.signed bs
  if vals.length = shape.prod then some ⟨dt, shape, vals⟩ else none

/-- The serialized little-endian bytes of an attribute value: the payload the
encoder embeds. -/
def expectedAttrBytes (attr : Attribute) (v : NDArray) : List Nat :=
  v.data.flatMap (fun x => leBytesU attr.dtype.itemsize (toU attr.dtype.itemsize x))

theorem expectedAttrBytes_length (attr : Attribute) (v : NDArray) :
    (expectedAttrBytes attr v).length = v.data.length * attr.dtype.itemsize :=
  flatMap_length_const _ _ _ (fun _ => leBytesU_length _ _)

theorem reinterpretAux_flatMap (d : Dtype) (data : List Int)
    (hw : 1 ≤ d.itemsize) (hr : ∀ x ∈ data, d.inRange x) :
    reinterpretAux d.itemsize d.signed data.length
      (data.flatMap (fun x => leBytesU d.itemsize (toU d.itemsize x))) = data := by
  induction data with
  | nil => rfl
  | cons x xs ih =>
    simp only [List.flatMap_cons, List.length_cons, reinterpretAux]
    have hlen : (leBytesU d.itemsize (toU d.itemsize x)).length = d.itemsize :=
      leBytesU_length _ _
    have htake : ((leBytesU d.itemsize (toU d.itemsize x)) ++
        xs.flatMap (fun y => leBytesU d.itemsize (toU d.itemsize y))).take d.itemsize =
        leBytesU d.itemsize (toU d.itemsize x) := by
      rw [List.take_append_of_le_length (by omega), List.take_of_length_le (by omega)]
    have hdrop : ((leBytesU d.itemsize (toU d.itemsize x)) ++
        xs.flatMap (fun y => leBytesU d.itemsize (toU d.itemsize y))).drop d.itemsize =
        xs.flatMap (fun y => leBytesU d.itemsize (toU d.itemsize y)) := by
      rw [List.drop_append_of_le_length (by omega), List.drop_of_length_le (by omega),
        List.nil_append]
    rw [htake, hdrop, natFromLE_leBytesU, pow256,
      Nat.mod_eq_of_lt (toU_lt d.itemsize x),
      fromU_toU d x hw (hr x (by simp)), ih (fun y hy => hr y (by simp [hy]))]

/-- The reinterpretation of the serialized payload recovers the logical
values. -/
theorem reinterpretLE_expected (attr : Attribute) (v : NDArray)
    (hw : 1 ≤ attr.dtype.itemsize) (hr : ∀ x ∈ v.data, attr.dtype.inRange x) :
    reinterpretLE attr.dtype.itemsize attr.dtype.signed (expectedAttrBytes attr v) =
      v.data := by
  unfold reinterpretLE
  rw [expectedAttrBytes_length, Nat.mul_div_cancel _ (by omega)]
  exact reinterpretAux_flatMap attr.dtype v.data hw hr

theorem ok_inRange_cast (attr : Attribute) (v : NDArray)
    (hv : v.ok = true) (hc : canCastSafe v.dtype attr.dtype = true) :
    ∀ x ∈ v.data, attr.dtype.inRange x := by
  intro x hx
  unfold NDArray.ok at hv
  simp only [Bool.and_eq_true, decide_eq_true_eq, List.all_eq_true] at hv
  exact inRange_of_canCastSafe v.dtype attr.dtype x hc hv.1 (hv.2 x hx)

/-- C1: for an attribute with declared dtype `T` and shape `S` and any input
safely castable to `T` — whatever byte-order tag the input carries and
whatever the writer host's byte order is — the encoder embeds exactly the
little-endian row-major bytes of `cast(value, T)` flattened (the payload and
the whole result are a host-free expression, and every host produces the same
result); reinterpreting those bytes as little-endian elements of `T` recovers
`cast(value, T)` element-wise, and when the value has `S`'s element count,
reshaping by `S` reproduces `cast(value, T)` exactly. -/
theorem C1_round_trip (host : SysByteOrder) (b : Builder) (attr : Attribute)
    (v : NDArray) (hd : attr.dtype.ok = true) (hv : v.ok = true)
    (hc : canCastSafe v.dtype attr.dtype = true) :
    ∃ pad b',
      save_numpy_vector_as_bytearray host b attr v = (b', .ok b'.buf.length) ∧
      b'.buf = leBytesU 4 (v.data.length * attr.dtype.itemsize)
        ++ (expectedAttrBytes attr v ++ (List.replicate pad 0 ++ b.buf)) ∧
      (∀ host2, save_numpy_vector_as_bytearray host2 b attr v =
        save_numpy_vector_as_bytearray host b attr v) ∧
      reinterpretLE attr.dtype.itemsize attr.dtype.signed (expectedAttrBytes attr v) =
        (v.flatten.castTo attr.dtype).data ∧
      (v.data.length = attr.shape.prod →
        decode_array attr.dtype attr.shape (expectedAttrBytes attr v) =
          some ⟨attr.dtype, attr.shape, (v.flatten.castTo attr.dtype).data⟩) := by
  have hw : 1 ≤ attr.dtype.itemsize := by
    rcases itemsize_cases attr.dtype hd with h | h | h | h <;> omega
  have hr := ok_inRange_cast attr v hv hc
  have hre := reinterpretLE_expected attr v hw hr
  obtain ⟨pad, hpad, heq, -, -, -⟩ := saveVec_ok host b attr v hd hc
  refine ⟨pad,
    { b with
        buf := leBytesU 4 (v.data.length * attr.dtype.itemsize) ++
          ((v.data.flatMap
            (fun x => leBytesU attr.dtype.itemsize (toU attr.dtype.itemsize x))) ++
            (List.replicate pad 0 ++ b.buf)),
        minalign := max (max b.minalign 4) attr.dtype.itemsize,
        vectorNumElems := v.data.length * attr.dtype.itemsize },
    ?_, rfl, ?_, ?_, ?_⟩
  · rw [heq]
    congr 2
    simp only [List.length_append, List.length_replicate, leBytesU_length,
      flatMap_length_const v.data attr.dtype.itemsize _
        (fun x => leBytesU_length attr.dtype.itemsize (toU attr.dtype.itemsize x))]
    omega
  · intro host2
    obtain ⟨pad2, hpad2, heq2, -, -, -⟩ := saveVec_ok host2 b attr v hd hc
    rw [heq, heq2, hpad2.trans hpad.symm]
  · exact hre
  · intro hshape
    unfold decode_array
    rw [hre]
    rw [if_pos (by simpa [NDArray.castTo, NDArray.flatten] using hshape)]
    rfl

/-- C2: for every successfully encoded value the started vector has element
size one byte (the payload occupies exactly one byte per declared unit, its
length tag counting bytes), declared length equal to the byte length — the
element count times the dtype's byte width, not the element count — requested
alignment equal to the dtype's item size (the data end is item-size-aligned,
on top of the library's 4-alignment for the tag), and the serialized bytes
are copied in full at the reserved position, directly below the tag. -/
theorem C2_vector_layout (host : SysByteOrder) (b : Builder) (attr : Attribute)
    (v : NDArray) (hd : attr.dtype.ok = true)
    (hc : canCastSafe v.dtype attr.dtype = true)
    (hsmall : v.data.length * attr.dtype.itemsize < 2 ^ 32) :
    ∃ pad b',
      save_numpy_vector_as_bytearray host b attr v = (b', .ok b'.buf.length) ∧
      b'.buf = leBytesU 4 (v.data.length * attr.dtype.itemsize)
        ++ (expectedAttrBytes attr v ++ (List.replicate pad 0 ++ b.buf)) ∧
      (expectedAttrBytes attr v).length = v.data.length * attr.dtype.itemsize ∧
      readU32end b'.buf b'.buf.length = v.data.length * attr.dtype.itemsize ∧
      (b.buf.length + pad + v.data.length * attr.dtype.itemsize) % 4 = 0 ∧
      (b.buf.length + pad + v.data.length * attr.dtype.itemsize) %
        attr.dtype.itemsize = 0 := by
  obtain ⟨pad, -, heq, hal4, halw, -⟩ := saveVec_ok host b attr v hd hc
  refine ⟨pad,
    { b with
        buf := leBytesU 4 (v.data.length * attr.dtype.itemsize) ++
          ((v.data.flatMap
            (fun x => leBytesU attr.dtype.itemsize (toU attr.dtype.itemsize x))) ++
            (List.replicate pad 0 ++ b.buf)),
        minalign := max (max b.minalign 4) attr.dtype.itemsize,
        vectorNumElems := v.data.length * attr.dtype.itemsize },
    ?_, rfl, expectedAttrBytes_length attr v, ?_, hal4, halw⟩
  · rw [heq]
    congr 2
    simp only [List.length_append, List.length_replicate, leBytesU_length,
      flatMap_length_const v.data attr.dtype.itemsize _
        (fun x => leBytesU_length attr.dtype.itemsize (toU attr.dtype.itemsize x))]
    omega
  · have hrest : ((v.data.flatMap
        (fun x => leBytesU attr.dtype.itemsize (toU attr.dtype.itemsize x))) ++
          (List.replicate pad 0 ++ b.buf)).length =
        v.data.length * attr.dtype.itemsize + pad + b.buf.length := by
      simp only [List.length_append, List.length_replicate,
        flatMap_length_const v.data attr.dtype.itemsize _
          (fun x => leBytesU_length attr.dtype.itemsize (toU attr.dtype.itemsize x))]
      omega
    have hfront := readU32end_front (v.data.length * attr.dtype.itemsize)
      ((v.data.flatMap
        (fun x => leBytesU attr.dtype.itemsize (toU attr.dtype.itemsize x))) ++
        (List.replicate pad 0 ++ b.buf))
    rw [hrest] at hfront
    have hlen : (leBytesU 4 (v.data.length * attr.dtype.itemsize) ++
        ((v.data.flatMap
          (fun x => leBytesU attr.dtype.itemsize (toU attr.dtype.itemsize x))) ++
          (List.replicate pad 0 ++ b.buf))).length =
        v.data.length * attr.dtype.itemsize + pad + b.buf.length + 4 := by
      simp only [List.length_append, List.length_replicate, leBytesU_length,
        flatMap_length_const v.data attr.dtype.itemsize _
          (fun x => leBytesU_length attr.dtype.itemsize (toU attr.dtype.itemsize x))]
      omega
    show readU32end _ _ = _
    rw [hlen, hfront]
    exact Nat.mod_eq_of_lt hsmall

/-! ## Concrete fixtures (for witnesses) -/

instance decEqExcept {ε α : Type} [DecidableEq ε] [DecidableEq α] :
    DecidableEq (Except ε α)
  | .error e, .error e' =>
    if h : e = e' then .isTrue (by rw [h]) else .isFalse (by simp [h])
  | .error _, .ok _ => .isFalse (by simp)
  | .ok _, .error _ => .isFalse (by simp)
  | .ok a, .ok a' =>
    if h : a = a' then .isTrue (by rw [h]) else .isFalse (by simp [h])

/-- `int32` in native order. -/
def dtI32 : Dtype := ⟨true, 4, '='⟩

/-- `>i2`: big-endian `int16`. -/
def dtI16be : Dtype := ⟨true, 2, '>'⟩

/-- `int64` in native order. -/
def dtI64 : Dtype := ⟨true, 8, '='⟩

def attrX : Attribute := ⟨"x", dtI32, [2]⟩

/-- A big-endian `int16` value of shape `(2,)`, safely castable to `int32`. -/
def arrGood : NDArray := ⟨dtI16be, [2], [1, -2]⟩

/-- An `int64` value: not safely castable to `int32`. -/
def arrBad : NDArray := ⟨dtI64, [2], [1, 2]⟩

def w0 : ShardWriterFlatBuffer := ShardWriterFlatBuffer.mk0 ⟨[attrX]⟩

theorem C1_round_trip_witness :
    attrX.dtype.ok = true ∧ arrGood.ok = true ∧
    canCastSafe arrGood.dtype attrX.dtype = true ∧
    (∃ b', save_numpy_vector_as_bytearray SysByteOrder.big Builder.init attrX arrGood
      = (b', Except.ok b'.buf.length)) := by
  refine ⟨by decide, by decide, by decide, ?_⟩
  obtain ⟨pad, b', h1, -, -, -, -⟩ :=
    C1_round_trip SysByteOrder.big Builder.init attrX arrGood (by decide) (by decide)
      (by decide)
  exact ⟨b', h1⟩

theorem C2_vector_layout_witness :
    attrX.dtype.ok = true ∧ canCastSafe arrGood.dtype attrX.dtype = true ∧
    arrGood.data.length * attrX.dtype.itemsize < 2 ^ 32 ∧
    (∃ b', save_numpy_vector_as_bytearray SysByteOrder.little Builder.init attrX arrGood
        = (b', Except.ok b'.buf.length) ∧
      readU32end b'.buf b'.buf.length = arrGood.data.length * attrX.dtype.itemsize) := by
  refine ⟨by decide, by decide, by decide, ?_⟩
  obtain ⟨pad, b', h1, -, -, h4, -, -⟩ :=
    C2_vector_layout SysByteOrder.little Builder.init attrX arrGood (by decide) (by decide)
      (by decide)
  exact ⟨b', h1, h4⟩

theorem C3_cast_rejection_witness :
    attrX.dtype.ok = true ∧
    save_numpy_vector_as_bytearray SysByteOrder.little Builder.init attrX arrBad
      = (Builder.init, Except.error EncodeError.typeMismatch) := by
  refine ⟨by decide, ?_⟩
  exact (C3_cast_rejection SysByteOrder.little Builder.init attrX arrBad w0 []
    (by decide)).1 (by decide)

theorem C5_empty_shard_witness :
    w0.examples = [] ∧
    (ShardWriterFlatBuffer._write SysByteOrder.little w0 [("x", arrBad)]).2
      = Except.error EncodeError.typeMismatch ∧
    ShardWriterFlatBuffer.close w0 = (w0, none) ∧
    ShardWriterFlatBuffer.close
        ((ShardWriterFlatBuffer._write SysByteOrder.little w0 [("x", arrBad)]).1)
      = ((ShardWriterFlatBuffer._write SysByteOrder.little w0 [("x", arrBad)]).1, none) := by
  have h := C5_empty_shard w0 SysByteOrder.little w0 [("x", arrBad)]
    EncodeError.typeMismatch (by decide) (by decide) (by decide)
  exact ⟨by decide, by decide, h.1, h.2⟩

theorem C7_write_after_close_witness :
    ((ShardWriter.closePublic ⟨w0, false⟩).1.closed = true) ∧
    ShardWriter.write SysByteOrder.little ⟨w0, true⟩ []
      = (⟨w0, true⟩, Except.error EncodeError.writeAfterClose) := by
  exact ⟨(C7_write_after_close ⟨w0, false⟩).1,
    (C7_write_after_close ⟨w0, true⟩).2 SysByteOrder.little [] rfl⟩

theorem C8_byteorder_witness :
    (∀ e, ensureLittleEndian SysByteOrder.big arrGood ≠ Except.error e) ∧
    ensureLittleEndian SysByteOrder.big arrGood
      = Except.ok (arrGood.byteswap SysByteOrder.big) := by
  have h := C8_byteorder SysByteOrder.big arrGood (by decide)
  exact ⟨h.1, h.2.1 (Or.inl (by decide))⟩

/-! ## Non-mutation: the array store

The value pipeline of the encoder (lines 142–176) again, this time on a heap
of arrays so that allocation is observable: `np.copy(value).flatten()`
returns a fresh flattened copy, `np.array(value, dtype=...)` returns a fresh
cast (NumPy's default `copy=True`), and `byteswap(inplace=False)` returns a
fresh swapped array.  No operation writes to an existing heap entry. -/

structure NpStore where
  arrays : List NDArray
deriving Repr

/-- Allocate a fresh array; returns its index. -/
def NpStore.alloc (s : NpStore) (a : NDArray) : NpStore × Nat :=
  ({ arrays := s.arrays ++ [a] }, s.arrays.length)

theorem getD_append_self {α} (l : List α) (a d : α) : (l ++ [a]).getD l.length d = a := by
  rw [List.getD_append_right _ _ _ _ (le_refl _)]
  simp

theorem app1 {α} (l : List α) (x : α) : ∃ e, l ++ [x] = l ++ e := ⟨[x], rfl⟩

theorem app2 {α} (l : List α) (x y : α) : ∃ e, (l ++ [x]) ++ [y] = l ++ e :=
  ⟨[x, y], by simp⟩

theorem app3 {α} (l : List α) (x y z : α) : ∃ e, ((l ++ [x]) ++ [y]) ++ [z] = l ++ e :=
  ⟨[x, y, z], by simp⟩

/-- Lines 142–176 of `save_numpy_vector_as_bytearray` on the store, the
caller's array being the entry at `idx`; returns the store as left behind and
the serialized `byte_representation`. -/
def prepareBytesStore (host : SysByteOrder) (s : NpStore) (attr : Attribute)
    (idx : Nat) : NpStore × Except EncodeError (List Nat) :=
  let value := s.arrays.getD idx default
  let value := value.flatten
  let s := (s.alloc value).1
  if ¬ canCastSafe value.dtype attr.dtype then (s, .error .typeMismatch)
  else
    let value := value.castTo attr.dtype
    let s := (s.alloc value).1
    if value.dtype.border = '=' then
      match host with
      | .big =>
        let value := value.byteswap host
        let s := (s.alloc value).1
        (s, .ok (value.tobytes host))
      | .little => (s, .ok (value.tobytes host))
    else if value.dtype.border = '>' then
      let value := value.byteswap host
      let s := (s.alloc value).1
      (s, .ok (value.tobytes host))
    else if value.dtype.border = '<' ∨ value.dtype.border = '|' then
      (s, .ok (value.tobytes host))
    else (s, .error .unexpectedByteOrder)

/-- C6: after the encoder runs — successfully or not — the caller's array is
unchanged: the store only grows by fresh allocations, the entry at the
caller's index is exactly the array that was there before (same element
values, same dtype and byte-order tag, same shape), and the computed byte
string agrees with the pure pipeline (the safe-cast check followed by
byte-order normalization and `tobytes`), confirming the copies and
out-of-place byte swaps change the result in no way. -/
theorem C6_non_mutation (host : SysByteOrder) (s : NpStore) (attr : Attribute)
    (idx : Nat) (h : idx < s.arrays.length) :
    (∃ extra, ((prepareBytesStore host s attr idx).1).arrays = s.arrays ++ extra) ∧
    ((prepareBytesStore host s attr idx).1).arrays.getD idx default =
      s.arrays.getD idx default ∧
    (prepareBytesStore host s attr idx).2 =
      (if ¬ canCastSafe ((s.arrays.getD idx default).flatten).dtype attr.dtype then
        .error .typeMismatch
      else
        match ensureLittleEndian host
            (((s.arrays.getD idx default).flatten).castTo attr.dtype) with
        | .error e => .error e
        | .ok v2 => .ok (v2.tobytes host)) := by
  have hext : ∃ extra, ((prepareBytesStore host s attr idx).1).arrays =
      s.arrays ++ extra := by
    unfold prepareBytesStore NpStore.alloc
    dsimp only
    split
    · exact app1 _ _
    · split
      · split
        · exact app3 _ _ _ _
        · exact app2 _ _ _
      · split
        · exact app3 _ _ _ _
        · split
          · exact app2 _ _ _
          · exact app2 _ _ _
  refine ⟨hext, ?_, ?_⟩
  · obtain ⟨extra, hx⟩ := hext
    rw [hx, List.getD_append _ _ _ _ h]
  · unfold prepareBytesStore NpStore.alloc ensureLittleEndian
    dsimp only
    by_cases hc : canCastSafe ((s.arrays.getD idx default).flatten).dtype attr.dtype
    · rw [if_neg (not_not_intro hc), if_neg (not_not_intro hc)]
      by_cases hb1 : (NDArray.castTo attr.dtype
          ((s.arrays.getD idx default).flatten)).dtype.border = '='
      · rw [if_pos hb1, if_pos hb1]
        cases host
        · rfl
        · rfl
      · rw [if_neg hb1, if_neg hb1]
        by_cases hb2 : (NDArray.castTo attr.dtype
            ((s.arrays.getD idx default).flatten)).dtype.border = '>'
        · rw [if_pos hb2, if_pos hb2]
        · rw [if_neg hb2, if_neg hb2]
          by_cases hb3 : (NDArray.castTo attr.dtype
              ((s.arrays.getD idx default).flatten)).dtype.border = '<' ∨
              (NDArray.castTo attr.dtype
                ((s.arrays.getD idx default).flatten)).dtype.border = '|'
          · rw [if_pos hb3, if_pos hb3]
          · rw [if_neg hb3, if_neg hb3]
    · rw [if_pos hc, if_pos hc]

theorem C6_non_mutation_witness :
    0 < (NpStore.mk [arrGood]).arrays.length ∧
    ((prepareBytesStore SysByteOrder.little (NpStore.mk [arrGood]) attrX 0).1).arrays.getD
        0 default = (NpStore.mk [arrGood]).arrays.getD 0 default := by
  refine ⟨by decide, ?_⟩
  exact (C6_non_mutation SysByteOrder.little (NpStore.mk [arrGood]) attrX 0 (by decide)).2.1

/-! ## The table machinery -/

/-- Every recorded vtable offset points at the single-offset-field vtable
`[vBytes = 6, objectSize, field0 = 4]` that this writer always produces
(only `vBytes` and `field0` are ever read back). -/
def VtOK (b : Builder) : Prop :=
  ∀ v ∈ b.vtables, 6 ≤ v ∧ v ≤ b.buf.length ∧
    readU16end b.buf v = 6 ∧ readU16end b.buf (v - 4) = 4

theorem VtOK_extend (b b' : Builder) (p : List Nat) (hv : b'.vtables = b.vtables)
    (hb : b'.buf = p ++ b.buf) (h : VtOK b) : VtOK b' := by
  intro v hvmem
  obtain ⟨h1, h2, h3, h4⟩ := h v (by rwa [hv] at hvmem)
  refine ⟨h1, by rw [hb]; simp only [List.length_append]; omega, ?_, ?_⟩
  · rw [hb, readU16end_append _ _ _ h2]
    exact h3
  · rw [hb, readU16end_append _ _ _ (by omega)]
    exact h4

theorem padLen4_zero (o : Nat) (h : o % 4 = 0) : Builder.padLen 4 o = 0 := by
  unfold Builder.padLen
  omega

theorem padLen2_zero (o : Nat) (h : o % 2 = 0) : Builder.padLen 2 o = 0 := by
  unfold Builder.padLen
  omega

/-- The state after `AttributeStart; AttributeAddAttributeBytes` (equally the
`Example` and `Shard` analogues): field offset placed, slot recorded. -/
theorem slotStage (b : Builder) (x : Nat) (hx : 4 ≤ x) (hal : b.offset % 4 = 0) :
    (b.startObject 1).prependUOffsetTRelativeSlot 0 x 0 =
      { b with
          buf := leBytesU 4 (b.buf.length - x + 4) ++ b.buf,
          minalign := max b.minalign 4,
          objectEnd := b.buf.length,
          currentVTable := [4 + b.buf.length] } := by
  have hal2 : b.buf.length % 4 = 0 := hal
  unfold Builder.prependUOffsetTRelativeSlot Builder.prependUOffsetTRelative
    Builder.startObject Builder.slot Builder.prep Builder.place32 Builder.offset
  rw [if_pos (by omega)]
  simp only [Nat.add_zero, padLen4_zero _ hal2, List.replicate_zero, List.nil_append,
    List.length_append, leBytesU_length, List.replicate_succ, List.replicate_zero,
    List.set_cons_zero]

/-- The state after additionally prepending the vtable placeholder (the first
step of `WriteVtable`). -/
theorem placeholderStage (b : Builder) (x : Nat) (hx : 4 ≤ x) (hal : b.offset % 4 = 0) :
    ((b.startObject 1).prependUOffsetTRelativeSlot 0 x 0).prependSOffsetTRelative 0 =
      { b with
          buf := leBytesU 4 (b.buf.length + 8) ++
            (leBytesU 4 (b.buf.length - x + 4) ++ b.buf),
          minalign := max b.minalign 4,
          objectEnd := b.buf.length,
          currentVTable := [4 + b.buf.length] } := by
  have hal2 : b.buf.length % 4 = 0 := hal
  rw [slotStage b x hx hal]
  unfold Builder.prependSOffsetTRelative Builder.prep Builder.place32 Builder.offset
  have h2 : (4 + b.buf.length + 0) % 4 = 0 := by omega
  simp only [padLen4_zero _ h2, List.replicate_zero, List.nil_append,
    List.length_append, leBytesU_length, Nat.sub_zero]
  rw [show (4 + b.buf.length + 4 : Nat) = b.buf.length + 8 from by omega]
  rw [show (b.minalign ⊔ 4) ⊔ 4 = b.minalign ⊔ 4 from by
    rw [sup_assoc, sup_idem]]

theorem i32bits_lt (s : Int) : Builder.i32bits s < 2 ^ 32 := by
  unfold Builder.i32bits
  have h2 : (0 : Int) < 2 ^ 32 := by norm_num
  have := Int.emod_lt_of_pos s h2
  have := Int.emod_nonneg s (by norm_num : (2 : Int) ^ 32 ≠ 0)
  omega

theorem i32bits_nonneg_eq (s : Int) (h0 : 0 ≤ s) (h1 : s < 2 ^ 31) :
    (Builder.i32bits s : Int) = s := by
  unfold Builder.i32bits
  rw [Int.emod_eq_of_lt h0 (by norm_num; omega)]
  omega

theorem i32bits_neg_eq (s : Int) (h0 : s < 0) (h1 : -(2 ^ 31) < s) :
    (Builder.i32bits s : Int) = s + 2 ^ 32 := by
  unfold Builder.i32bits
  have hmod : s % ((2 : Int) ^ 32) = s + 2 ^ 32 := by
    have h2 : (s + 2 ^ 32) % ((2 : Int) ^ 32) = s % ((2 : Int) ^ 32) := by
      have h0' := Int.add_mul_emod_self_left (a := s) (b := (2 : Int) ^ 32) (c := 1)
      rw [mul_one] at h0'
      exact h0'
    rw [← h2, Int.emod_eq_of_lt (by norm_num; omega) (by norm_num; omega)]
  rw [hmod]
  omega

/-- Reading back a stored signed 32-bit value in `(-2^31, 2^31)`. -/
theorem readI32end_front (s : Int) (R : List Nat) (h1 : -(2 ^ 31) < s)
    (h2 : s < 2 ^ 31) :
    readI32end (leBytesU 4 (Builder.i32bits s) ++ R) (R.length + 4) = s := by
  unfold readI32end
  rw [readU32end_front, Nat.mod_eq_of_lt (i32bits_lt s)]
  rcases lt_or_le s 0 with hneg | hpos
  · have he := i32bits_neg_eq s hneg h1
    rw [if_pos (by omega)]
    omega
  · have he := i32bits_nonneg_eq s hpos h2
    rw [if_neg (by omega)]
    omega

theorem trimSingle (y : Nat) (hy : y ≠ 0) : Builder.trimTrailingZeros [y] = [y] := by
  unfold Builder.trimTrailingZeros
  rw [show Builder.trimTrailingZeros [] = [] from rfl]
  simp [hy]

/-- Patching the placeholder when it is the four front bytes. -/
theorem patch32end_front (bb : Builder) (a z : Nat) (R : List Nat)
    (hb : bb.buf = leBytesU 4 a ++ R) (d : Nat) (hd : bb.buf.length = d) :
    bb.patch32end d z = { bb with buf := leBytesU 4 z ++ R } := by
  subst hd
  unfold Builder.patch32end
  simp only [Nat.sub_self, hb, leBytesU4_explicit, List.cons_append, List.nil_append,
    List.set_cons_zero, List.set_cons_succ, List.getD_cons_zero, List.getD_cons_succ]

/-- Patching the placeholder when six vtable bytes sit in front of it. -/
theorem patch32end_mid6 (bb : Builder) (c0 c1 c2 c3 c4 c5 a z : Nat) (R : List Nat)
    (hb : bb.buf = c0 :: c1 :: c2 :: c3 :: c4 :: c5 :: (leBytesU 4 a ++ R))
    (d : Nat) (hd : bb.buf.length = d + 6) :
    bb.patch32end d z =
      { bb with buf := c0 :: c1 :: c2 :: c3 :: c4 :: c5 :: (leBytesU 4 z ++ R) } := by
  unfold Builder.patch32end
  rw [hd, Nat.add_sub_cancel_left, hb]
  simp only [leBytesU4_explicit, List.cons_append, List.nil_append]
  rfl

theorem sup4222 (m : Nat) : m ⊔ 4 ⊔ 2 ⊔ 2 ⊔ 2 = m ⊔ 4 := by
  rw [sup_assoc, sup_assoc, sup_assoc]
  congr 1

/-- `PrependVOffsetT` from an even cursor: no padding. -/
theorem prependV_even (bb : Builder) (y : Nat) (he : bb.buf.length % 2 = 0) :
    bb.prependVOffsetT y =
      { bb with buf := leBytesU 2 y ++ bb.buf, minalign := max bb.minalign 2 } := by
  unfold Builder.prependVOffsetT Builder.prep Builder.place16 Builder.offset
  simp only [Nat.add_zero, padLen2_zero _ he, List.replicate_zero, List.nil_append]

/-- One-field record write (`...Start`; `...Add(x)`; `...End`), the common
shape of the `Attribute`, `Example` and `Shard` records: from a 4-aligned
state with sound vtables it returns the object offset `len + 8`, only
prepends, either reuses the standard vtable or writes a fresh one, and the
record decodes to field target `x`. -/
theorem tableWrite_ok (b : Builder) (x : Nat)
    (hvt : VtOK b) (hx : 4 ≤ x) (hxle : x ≤ b.offset)
    (hal : b.offset % 4 = 0) (hbound : b.offset + 20 ≤ 2 ^ 31) :
    ∃ b', ((b.startObject 1).prependUOffsetTRelativeSlot 0 x 0).endObject =
        (b', b.buf.length + 8) ∧
      (∃ p, b'.buf = p ++ b.buf) ∧
      (b'.buf.length = b.buf.length + 8 ∨ b'.buf.length = b.buf.length + 14) ∧
      b'.minalign = max b.minalign 4 ∧
      b'.vectorNumElems = b.vectorNumElems ∧
      VtOK b' ∧ GoodTable b'.buf (b.buf.length + 8) x := by
  have hal2 : b.buf.length % 4 = 0 := hal
  have hxle2 : x ≤ b.buf.length := hxle
  have hbound2 : b.buf.length + 20 ≤ 2 ^ 31 := hbound
  unfold Builder.endObject Builder.writeVtable
  rw [placeholderStage b x hx hal]
  dsimp only
  rw [trimSingle _ (by omega)]
  unfold Builder.offset
  simp only [List.length_append, leBytesU_length]
  rw [show (4 : Nat) + (4 + b.buf.length) = b.buf.length + 8 from by omega]
  have h6 : leBytesU 2 6 = [6, 0] := rfl
  have h8 : leBytesU 2 8 = [8, 0] := rfl
  have h4 : leBytesU 2 4 = [4, 0] := rfl
  rcases hvl : b.vtables with _ | ⟨v₀, rest⟩
  · -- no vtable yet: write a fresh one
    rw [List.find?_nil]
    dsimp only
    rw [List.reverse_singleton, List.foldl_cons, List.foldl_nil]
    rw [if_pos (show (4 + b.buf.length ≠ 0) from by omega)]
    rw [show b.buf.length + 8 - (4 + b.buf.length) = 4 from by omega]
    rw [prependV_even _ 4 (by
      simp only [List.length_append, leBytesU_length]
      omega)]
    dsimp only
    rw [show b.buf.length + 8 - b.buf.length = 8 from by omega]
    rw [prependV_even _ 8 (by
      simp only [List.length_cons, List.length_append, leBytesU_length]
      omega)]
    dsimp only
    rw [show ([4 + b.buf.length].length + 2) * 2 = 6 from by simp]
    rw [prependV_even _ 6 (by
      simp only [List.length_cons, List.length_append, leBytesU_length]
      omega)]
    dsimp only
    rw [show (((leBytesU 2 6 ++ (leBytesU 2 8 ++ (leBytesU 2 4 ++
          (leBytesU 4 (b.buf.length + 8) ++
            (leBytesU 4 (b.buf.length - x + 4) ++ b.buf))))).length : Int) -
        ((b.buf.length + 8 : Nat) : Int)) = 6 from by
      simp only [List.length_append, leBytesU_length]
      omega]
    rw [patch32end_mid6 _ 6 0 8 0 4 0 (b.buf.length + 8) (Builder.i32bits 6)
      (leBytesU 4 (b.buf.length - x + 4) ++ b.buf)
      (by simp [h6, h8, h4]) (b.buf.length + 8)
      (by simp only [List.length_cons, List.length_append, leBytesU_length]; omega)]
    dsimp only
    rw [show (6 :: 0 :: 8 :: 0 :: 4 :: 0 :: (leBytesU 4 (Builder.i32bits 6) ++
          (leBytesU 4 (b.buf.length - x + 4) ++ b.buf))).length = b.buf.length + 14 from by
        simp only [List.length_cons, List.length_append, leBytesU_length]; omega,
      List.nil_append]
    set CB : List Nat := 6 :: 0 :: 8 :: 0 :: 4 :: 0 :: (leBytesU 4 (Builder.i32bits 6) ++
      (leBytesU 4 (b.buf.length - x + 4) ++ b.buf)) with hCB
    have hlen : CB.length = b.buf.length + 14 := by
      rw [hCB]
      simp only [List.length_cons, List.length_append, leBytesU_length]
      omega
    have hb' : CB = leBytesU 2 6 ++ (leBytesU 2 8 ++ (leBytesU 2 4 ++
        (leBytesU 4 (Builder.i32bits 6) ++
          (leBytesU 4 (b.buf.length - x + 4) ++ b.buf)))) := by
      rw [hCB]
      simp [h6, h8, h4]
    have hr16a : readU16end CB (b.buf.length + 14) = 6 := by
      rw [hb', show b.buf.length + 14 = (leBytesU 2 8 ++ (leBytesU 2 4 ++
          (leBytesU 4 (Builder.i32bits 6) ++
            (leBytesU 4 (b.buf.length - x + 4) ++ b.buf)))).length + 2 from by
        simp only [List.length_append, leBytesU_length]; omega]
      rw [readU16end_front]
      decide
    have hr16b : readU16end CB (b.buf.length + 10) = 4 := by
      rw [hb']
      rw [readU16end_append _ _ _ (by
        simp only [List.length_append, leBytesU_length]; omega)]
      rw [readU16end_append _ _ _ (by
        simp only [List.length_append, leBytesU_length]; omega)]
      rw [show b.buf.length + 10 = (leBytesU 4 (Builder.i32bits 6) ++
          (leBytesU 4 (b.buf.length - x + 4) ++ b.buf)).length + 2 from by
        simp only [List.length_append, leBytesU_length]; omega]
      rw [readU16end_front]
      decide
    have hrI : readI32end CB (b.buf.length + 8) = 6 := by
      rw [hb']
      rw [readI32end_append _ _ _ (by
        simp only [List.length_append, leBytesU_length]; omega)]
      rw [readI32end_append _ _ _ (by
        simp only [List.length_append, leBytesU_length]; omega)]
      rw [readI32end_append _ _ _ (by
        simp only [List.length_append, leBytesU_length]; omega)]
      rw [show b.buf.length + 8 = (leBytesU 4 (b.buf.length - x + 4) ++ b.buf).length + 4 from by
        simp only [List.length_append, leBytesU_length]; omega]
      exact readI32end_front 6 _ (by norm_num) (by norm_num)
    have hrU : readU32end CB (b.buf.length + 4) = b.buf.length - x + 4 := by
      rw [hb']
      rw [readU32end_append _ _ _ (by
        simp only [List.length_append, leBytesU_length]; omega)]
      rw [readU32end_append _ _ _ (by
        simp only [List.length_append, leBytesU_length]; omega)]
      rw [readU32end_append _ _ _ (by
        simp only [List.length_append, leBytesU_length]; omega)]
      rw [readU32end_append _ _ _ (by
        simp only [List.length_append, leBytesU_length]; omega)]
      rw [readU32end_front]
      omega
    refine ⟨_, rfl, ⟨6 :: 0 :: 8 :: 0 :: 4 :: 0 :: (leBytesU 4 (Builder.i32bits 6) ++
        leBytesU 4 (b.buf.length - x + 4)), by rw [hCB]; simp⟩,
      Or.inr hlen, sup4222 b.minalign, rfl, ?_, ?_, ?_, ?_, ?_⟩
    · intro v hv
      simp only [List.mem_singleton] at hv
      subst hv
      refine ⟨by omega, by rw [hlen], hr16a, ?_⟩
      rw [show b.buf.length + 14 - 4 = b.buf.length + 10 from by omega]
      exact hr16b
    · rw [hlen]
      omega
    · rw [hrI]
      omega
    · rw [hrI, hlen]
      omega
    · unfold tableField0
      dsimp only
      rw [hrI]
      rw [show (((b.buf.length + 8 : Nat) : Int) + 6).toNat = b.buf.length + 14 from by omega]
      rw [show b.buf.length + 14 - 4 = b.buf.length + 10 from by omega]
      rw [hr16b]
      rw [if_neg (by norm_num)]
      rw [show b.buf.length + 8 - 4 = b.buf.length + 4 from by omega]
      rw [hrU]
      exact congrArg some (by omega)
  · -- the standard vtable already exists: it is found and reused
    obtain ⟨hv6, hvle, hvr6, hvr4⟩ := hvt v₀ (by rw [hvl]; exact List.mem_cons_self _ _)
    have hpred : Builder.vtableEqualB (leBytesU 4 (b.buf.length + 8) ++
        (leBytesU 4 (b.buf.length - x + 4) ++ b.buf)) [4 + b.buf.length]
        (b.buf.length + 8) v₀ = true := by
      unfold Builder.vtableEqualB
      rw [readU16end_append _ _ _ (by
        simp only [List.length_append, leBytesU_length]; omega)]
      rw [readU16end_append _ _ _ (by omega)]
      rw [hvr6]
      rw [if_neg (by simp)]
      simp only [List.length_cons, List.length_nil, List.range_succ, List.range_zero,
        List.nil_append, List.all_cons, List.all_nil, Nat.mul_zero, Nat.sub_zero,
        List.getD_cons_zero, Bool.and_true]
      rw [readU16end_append _ _ _ (by
        simp only [List.length_append, leBytesU_length]; omega)]
      rw [readU16end_append _ _ _ (by omega)]
      rw [hvr4]
      simp only [Bool.or_eq_true, beq_iff_eq]
      right
      push_cast
      omega
    rw [List.find?_cons_of_pos _ hpred]
    dsimp only
    rw [patch32end_front _ (b.buf.length + 8) _
      (leBytesU 4 (b.buf.length - x + 4) ++ b.buf) rfl (b.buf.length + 8)
      (by simp only [List.length_append, leBytesU_length]; omega)]
    dsimp only
    set CB : List Nat := leBytesU 4 (Builder.i32bits ((v₀ : Int) - ((b.buf.length + 8 : Nat) : Int))) ++
      (leBytesU 4 (b.buf.length - x + 4) ++ b.buf) with hCB
    have hlen : CB.length = b.buf.length + 8 := by
      rw [hCB]
      simp only [List.length_append, leBytesU_length]
      omega
    have hrI : readI32end CB (b.buf.length + 8) =
        (v₀ : Int) - ((b.buf.length + 8 : Nat) : Int) := by
      have hfr := readI32end_front ((v₀ : Int) - ((b.buf.length + 8 : Nat) : Int))
        (leBytesU 4 (b.buf.length - x + 4) ++ b.buf)
        (by push_cast; omega) (by push_cast; omega)
      rw [show (leBytesU 4 (b.buf.length - x + 4) ++ b.buf).length + 4 =
          b.buf.length + 8 from by
        simp only [List.length_append, leBytesU_length]; omega] at hfr
      exact hfr
    have hr16v : ∀ d, d ≤ b.buf.length → readU16end CB d = readU16end b.buf d := by
      intro d hd
      rw [hCB]
      rw [readU16end_append _ _ _ (by
        simp only [List.length_append, leBytesU_length]; omega)]
      rw [readU16end_append _ _ _ (by omega)]
    have hrU : readU32end CB (b.buf.length + 4) = b.buf.length - x + 4 := by
      rw [hCB]
      rw [readU32end_append _ _ _ (by
        simp only [List.length_append, leBytesU_length]; omega)]
      rw [readU32end_front]
      omega
    refine ⟨_, rfl, ⟨leBytesU 4 (Builder.i32bits ((v₀ : Int) - ((b.buf.length + 8 : Nat) : Int))) ++
        leBytesU 4 (b.buf.length - x + 4), by rw [hCB]; simp⟩,
      Or.inl hlen, rfl, rfl, ?_, ?_, ?_, ?_, ?_⟩
    · intro v hv
      obtain ⟨h1, h2, h3, h4⟩ := hvt v (by rw [hvl]; exact hv)
      refine ⟨h1, by rw [hlen]; omega, ?_, ?_⟩
      · rw [hr16v v h2]
        exact h3
      · rw [hr16v (v - 4) (by omega)]
        exact h4
    · rw [hlen]
    · rw [hrI]
      push_cast
      omega
    · rw [hrI, hlen]
      omega
    · unfold tableField0
      dsimp only
      rw [hrI]
      rw [show (((b.buf.length + 8 : Nat) : Int) +
          ((v₀ : Int) - ((b.buf.length + 8 : Nat) : Int))).toNat = v₀ from by push_cast; omega]
      rw [hr16v (v₀ - 4) (by omega)]
      rw [hvr4]
      rw [if_neg (by norm_num)]
      rw [show b.buf.length + 8 - 4 = b.buf.length + 4 from by omega]
      rw [hrU]
      exact congrArg some (by omega)

/-! ## The offset-vector machinery -/

theorem startVector44 (b : Builder) (n : Nat) (hal : b.buf.length % 4 = 0) :
    b.startVector 4 n 4 =
      { b with vectorNumElems := n, minalign := max b.minalign 4 } := by
  unfold Builder.startVector Builder.prep Builder.offset
  dsimp only
  simp only [padLen4_zero _ (show (b.buf.length + 4 * n) % 4 = 0 from by omega),
    List.replicate_zero, List.nil_append]
  rw [show (b.minalign ⊔ 4) ⊔ 4 = b.minalign ⊔ 4 from by rw [sup_assoc, sup_idem]]

theorem prependU_aligned (bb : Builder) (off : Nat) (hal : bb.buf.length % 4 = 0) :
    bb.prependUOffsetTRelative off =
      { bb with buf := leBytesU 4 (bb.buf.length - off + 4) ++ bb.buf,
                minalign := max bb.minalign 4 } := by
  unfold Builder.prependUOffsetTRelative Builder.prep Builder.place32 Builder.offset
  dsimp only
  simp only [Nat.add_zero, padLen4_zero _ hal, List.replicate_zero, List.nil_append]

/-- The reversed-prepend loop over collected offsets (`for offset in
reversed(...): PrependUOffsetTRelative(offset)`): it only prepends, and the
element at forward index `j` stores the forward distance to `offs[j]`. -/
theorem uvecFold (c : Builder) (offs : List Nat)
    (hal : c.buf.length % 4 = 0)
    (hm : max c.minalign 4 = c.minalign)
    (h4 : ∀ o ∈ offs, 4 ≤ o ∧ o ≤ c.buf.length)
    (hbound : c.buf.length + 4 * offs.length ≤ 2 ^ 31) :
    ∃ p, (offs.reverse.foldl (fun bb off => bb.prependUOffsetTRelative off) c) =
        { c with buf := p ++ c.buf } ∧
      p.length = 4 * offs.length ∧
      ∀ j, j < offs.length →
        readU32end (p ++ c.buf) (c.buf.length + 4 * (offs.length - 1 - j) + 4) =
          c.buf.length + 4 * (offs.length - 1 - j) + 4 - offs.getD j 0 := by
  induction offs with
  | nil =>
    refine ⟨[], by simp, by simp, ?_⟩
    intro j hj
    exact absurd hj (by simp)
  | cons a l ih =>
    obtain ⟨p, hp, hplen, hreads⟩ := ih
      (fun o ho => h4 o (List.mem_cons_of_mem a ho))
      (by simp only [List.length_cons] at hbound; omega)
    rw [List.reverse_cons, List.foldl_append, hp, List.foldl_cons, List.foldl_nil]
    rw [prependU_aligned _ a (by
      simp only [List.length_append, hplen]
      omega)]
    dsimp only
    refine ⟨leBytesU 4 ((p ++ c.buf).length - a + 4) ++ p, ?_, ?_, ?_⟩
    · rw [List.append_assoc]
      have hmm : c.minalign ⊔ 4 = c.minalign := hm
      rw [hmm]
    · simp only [List.length_append, leBytesU_length, hplen, List.length_cons]
      omega
    · intro j hj
      obtain ⟨ha4, hale⟩ := h4 a (List.mem_cons_self a l)
      rw [List.append_assoc]
      rcases j with _ | j
      · rw [show c.buf.length + 4 * ((a :: l).length - 1 - 0) + 4 =
            (p ++ c.buf).length + 4 from by
          simp only [List.length_append, hplen, List.length_cons]
          omega]
        rw [readU32end_front]
        simp only [List.length_append, hplen, List.getD_cons_zero,
          List.length_cons]
        have hple : a ≤ 4 * l.length + c.buf.length := by omega
        rw [Nat.mod_eq_of_lt (by
          simp only [List.length_cons] at hbound
          omega)]
        omega
      · have hj' : j < l.length := by
          simp only [List.length_cons] at hj
          omega
        have hd : c.buf.length + 4 * ((a :: l).length - 1 - (j + 1)) + 4 =
            c.buf.length + 4 * (l.length - 1 - j) + 4 := by
          simp only [List.length_cons]
          omega
        rw [hd]
        rw [readU32end_append _ _ _ (by
          simp only [List.length_append, hplen]
          omega)]
        rw [hreads j hj']
        simp only [List.getD_cons_succ]

/-- `StartVector(4, n, 4)`; reversed prepends; `EndVector()` — the vector
write of `_write` (lines 88–93) and `close` (lines 208–213): pure prepend,
returns the vector's end-distance, decodes to exactly `offs` in order. -/
theorem padLen4_lt (o : Nat) : Builder.padLen 4 o < 4 := padLen_lt 4 o (by norm_num)

theorem startVector44g (b : Builder) (n : Nat) :
    b.startVector 4 n 4 =
      { b with buf := List.replicate (Builder.padLen 4 b.buf.length) 0 ++ b.buf,
               vectorNumElems := n, minalign := max b.minalign 4 } := by
  unfold Builder.startVector Builder.prep Builder.offset
  dsimp only
  rw [show Builder.padLen 4 (b.buf.length + 4 * n) = Builder.padLen 4 b.buf.length from by
    unfold Builder.padLen
    omega]
  simp only [List.length_append, List.length_replicate]
  rw [show Builder.padLen 4
      (Builder.padLen 4 b.buf.length + b.buf.length + 4 * n) = 0 from by
    have hs := padLen_spec 4 b.buf.length (by norm_num)
    unfold Builder.padLen at *
    omega]
  rw [show (b.minalign ⊔ 4) ⊔ 4 = b.minalign ⊔ 4 from by rw [sup_assoc, sup_idem]]
  simp only [List.replicate_zero, List.nil_append]

/-- `StartVector(4, n, 4)`; reversed prepends; `EndVector()` — the vector
write of `_write` (lines 88–93) and `close` (lines 208–213): pure prepend
(after `StartVector`'s own 4-alignment padding), returns the vector's
end-distance, decodes to exactly `offs` in order. -/
theorem uvecWrite_ok (b : Builder) (offs : List Nat)
    (h4 : ∀ o ∈ offs, 4 ≤ o ∧ o ≤ b.buf.length)
    (hbound : b.buf.length + 4 * offs.length + 8 ≤ 2 ^ 31) :
    ∃ b', ((offs.reverse.foldl (fun bb off => bb.prependUOffsetTRelative off)
          (b.startVector 4 offs.length 4)).endVector) =
        (b', b.buf.length + Builder.padLen 4 b.buf.length + 4 * offs.length + 4) ∧
      (∃ p, b'.buf = p ++ b.buf) ∧
      b'.buf.length =
        b.buf.length + Builder.padLen 4 b.buf.length + 4 * offs.length + 4 ∧
      b'.buf.length % 4 = 0 ∧
      Builder.padLen 4 b.buf.length < 4 ∧
      b'.minalign = max b.minalign 4 ∧
      b'.vectorNumElems = offs.length ∧
      b'.objectEnd = b.objectEnd ∧ b'.currentVTable = b.currentVTable ∧
      b'.vtables = b.vtables ∧
      GoodUVec b'.buf
        (b.buf.length + Builder.padLen 4 b.buf.length + 4 * offs.length + 4) offs := by
  rw [startVector44g b offs.length]
  have hP := padLen4_lt b.buf.length
  have hPs := padLen_spec 4 b.buf.length (by norm_num)
  obtain ⟨p, hp, hplen, hreads⟩ := uvecFold
    { b with buf := List.replicate (Builder.padLen 4 b.buf.length) 0 ++ b.buf,
             vectorNumElems := offs.length, minalign := max b.minalign 4 } offs
    (by dsimp only
        simp only [List.length_append, List.length_replicate]
        omega)
    (by dsimp only
        rw [sup_assoc, sup_idem])
    (fun o ho => ⟨(h4 o ho).1, by
      dsimp only
      simp only [List.length_append, List.length_replicate]
      have := (h4 o ho).2
      omega⟩)
    (by dsimp only
        simp only [List.length_append, List.length_replicate]
        omega)
  dsimp only at hp hreads
  rw [hp]
  unfold Builder.endVector Builder.place32 Builder.offset
  dsimp only
  have hplen2 : (p ++ (List.replicate (Builder.padLen 4 b.buf.length) 0 ++ b.buf)).length =
      b.buf.length + Builder.padLen 4 b.buf.length + 4 * offs.length := by
    simp only [List.length_append, List.length_replicate, hplen]
    omega
  have hlen' : (leBytesU 4 offs.length ++
      (p ++ (List.replicate (Builder.padLen 4 b.buf.length) 0 ++ b.buf))).length =
      b.buf.length + Builder.padLen 4 b.buf.length + 4 * offs.length + 4 := by
    simp only [List.length_append, List.length_replicate, leBytesU_length, hplen]
    omega
  have htag : readU32end (leBytesU 4 offs.length ++
      (p ++ (List.replicate (Builder.padLen 4 b.buf.length) 0 ++ b.buf)))
      (b.buf.length + Builder.padLen 4 b.buf.length + 4 * offs.length + 4) = offs.length := by
    rw [show b.buf.length + Builder.padLen 4 b.buf.length + 4 * offs.length + 4 =
        (p ++ (List.replicate (Builder.padLen 4 b.buf.length) 0 ++ b.buf)).length + 4 from by
      rw [hplen2]]
    rw [readU32end_front]
    exact Nat.mod_eq_of_lt (by omega)
  have hread' : ∀ j, j < offs.length →
      readU32end (leBytesU 4 offs.length ++
        (p ++ (List.replicate (Builder.padLen 4 b.buf.length) 0 ++ b.buf)))
        (b.buf.length + Builder.padLen 4 b.buf.length + 4 * offs.length + 4 - 4 - 4 * j) =
      b.buf.length + Builder.padLen 4 b.buf.length + 4 * (offs.length - 1 - j) + 4 -
        offs.getD j 0 := by
    intro j hj
    have hc := hreads j hj
    have hrepl : (List.replicate (Builder.padLen 4 b.buf.length) 0 ++ b.buf).length =
        b.buf.length + Builder.padLen 4 b.buf.length := by
      simp only [List.length_append, List.length_replicate]
      omega
    rw [hrepl] at hc
    rw [show b.buf.length + Builder.padLen 4 b.buf.length + 4 * offs.length + 4 - 4 - 4 * j =
        b.buf.length + Builder.padLen 4 b.buf.length + 4 * (offs.length - 1 - j) + 4 from by
      omega]
    rw [readU32end_append _ _ _ (by
      rw [hplen2]
      omega)]
    exact hc
  refine ⟨(⟨leBytesU 4 offs.length ++
      (p ++ (List.replicate (Builder.padLen 4 b.buf.length) 0 ++ b.buf)),
      max b.minalign 4, offs.length, b.objectEnd, b.currentVTable, b.vtables⟩ : Builder),
    by rw [hlen'], ⟨leBytesU 4 offs.length ++ (p ++ List.replicate (Builder.padLen 4 b.buf.length) 0),
      by simp [List.append_assoc]⟩,
    hlen', by rw [hlen']; omega, hP, rfl, rfl, rfl, rfl, rfl, ?_, ?_, ?_, ?_⟩
  · omega
  · exact le_of_eq hlen'.symm
  · exact htag
  · unfold decodeUVector
    rw [htag]
    refine List.ext_getElem (by simp) ?_
    intro j h1 h2
    simp only [List.getElem_map, List.getElem_range]
    rw [hread' j (by simpa using h1)]
    rw [List.getD_eq_getElem _ _ h2]
    have hoj := h4 (offs.get ⟨j, h2⟩) (List.get_mem _ _ _)
    rw [show offs.get ⟨j, h2⟩ = offs[j] from rfl] at hoj
    have hjlt : j < offs.length := h2
    omega

/-- A freshly written byte vector (tag, then payload) at the top of the
buffer decodes to the payload. -/
theorem GoodByteVec_front (payload R : List Nat) (hL : payload.length < 2 ^ 32)
    (d : Nat) (hd : d = payload.length + R.length + 4) :
    GoodByteVec (leBytesU 4 payload.length ++ (payload ++ R)) d payload := by
  subst hd
  have htag : readU32end (leBytesU 4 payload.length ++ (payload ++ R))
      (payload.length + R.length + 4) = payload.length := by
    rw [show payload.length + R.length + 4 = (payload ++ R).length + 4 from by
      simp only [List.length_append]]
    rw [readU32end_front]
    exact Nat.mod_eq_of_lt hL
  refine ⟨by omega, by simp only [List.length_append, leBytesU_length]; omega, htag, ?_⟩
  unfold decodeByteVector
  rw [htag]
  refine List.ext_getElem (by simp) ?_
  intro i h1 h2
  simp only [List.getElem_map, List.getElem_range]
  rw [← List.append_assoc]
  rw [show payload.length + R.length + 4 - 4 - i =
      (leBytesU 4 payload.length ++ payload).length + R.length - (4 + i) from by
    simp only [List.length_append, leBytesU_length]; omega]
  rw [endByte_front _ _ (4 + i) (by
    simp only [List.length_append, leBytesU_length]; omega)]
  rw [List.getD_append_right _ _ _ _ (by simp only [leBytesU_length]; omega)]
  rw [show 4 + i - (leBytesU 4 payload.length).length = i from by
    simp only [leBytesU_length]
    omega]
  exact List.getD_eq_getElem _ _ h2

/-! ## Assembling `_write` and `close` -/

/-- The byte vectors `_write` serializes for one example: the schema order,
each attribute's little-endian payload of the looked-up value. -/
def expectedExample (schema : List Attribute) (values : ExampleT) : List (List Nat) :=
  schema.map (fun attr =>
    expectedAttrBytes attr ((List.lookup attr.name values).getD default))

/-- A generous upper bound on the bytes one attribute write can add. -/
def attrCost (attr : Attribute) (values : ExampleT) : Nat :=
  ((List.lookup attr.name values).getD default).data.length * attr.dtype.itemsize + 50

/-- A generous upper bound on the bytes the attribute loop can add. -/
def loopCost (schema : List Attribute) (values : ExampleT) : Nat :=
  (schema.map (fun a => attrCost a values)).sum

/-- The attribute loop of `_write`: it only prepends to the buffer, grows it
by at most `loopCost`, keeps the vtable invariant, and raises `minalign` to
at most 8.  When every schema attribute is present and safely castable it
succeeds with one `Attribute`-record offset per schema entry, in schema
order, each decoding to that attribute's serialized payload. -/
theorem writeLoop_inv (host : SysByteOrder) (b : Builder) (schema : List Attribute)
    (values : ExampleT)
    (hvt : VtOK b)
    (hok : ∀ attr ∈ schema, attr.dtype.ok = true)
    (hbound : b.buf.length + loopCost schema values ≤ 2 ^ 31) :
    ∃ b' r, writeLoop host b schema values = (b', r) ∧
      (∃ p, b'.buf = p ++ b.buf) ∧
      b.buf.length ≤ b'.buf.length ∧
      b'.buf.length ≤ b.buf.length + loopCost schema values ∧
      b'.minalign ≤ max b.minalign 8 ∧
      VtOK b' ∧
      (∀ offs, r = .ok offs →
        offs.length = schema.length ∧
        (∀ t ∈ offs, 4 ≤ t ∧ t ≤ b'.buf.length) ∧
        List.Forall₂ (GoodAttr b'.buf) offs (expectedExample schema values) ∧
        (∀ a ∈ schema, ∃ v, List.lookup a.name values = some v ∧
          canCastSafe v.dtype a.dtype = true)) ∧
      ((∀ a ∈ schema, ∃ v, List.lookup a.name values = some v ∧
          canCastSafe v.dtype a.dtype = true) → ∃ offs, r = .ok offs) := by
  revert hvt hok hbound
  induction schema generalizing b with
  | nil =>
    intro hvt hok hbound
    refine ⟨b, .ok [], rfl, ⟨[], by simp⟩, le_refl _, Nat.le_add_right _ _,
      le_max_left _ _, hvt, ?_, fun _ => ⟨[], rfl⟩⟩
    intro offs h
    injection h with h2
    subst h2
    refine ⟨rfl, by simp, ?_, ?_⟩
    · unfold expectedExample
      simp only [List.map_nil]
      exact List.Forall₂.nil
    · intro a ha
      exact absurd ha (List.not_mem_nil a)
  | cons attr rest ih =>
    intro hvt hok hbound
    have hcost : loopCost (attr :: rest) values =
        attrCost attr values + loopCost rest values := by
      unfold loopCost
      rw [List.map_cons, List.sum_cons]
    rcases hlook : List.lookup attr.name values with _ | v
    · refine ⟨b, .error .missingAttribute, ?_, ⟨[], by simp⟩, le_refl _,
        Nat.le_add_right _ _, le_max_left _ _, hvt, ?_, ?_⟩
      · unfold writeLoop
        rw [hlook]
      · intro offs h
        exact Except.noConfusion h
      · intro hall
        obtain ⟨v2, hv2, -⟩ := hall attr (List.mem_cons_self attr rest)
        rw [hlook] at hv2
        exact Option.noConfusion hv2
    · by_cases hc : canCastSafe v.dtype attr.dtype = true
      · -- success for this attribute
        have hdok := hok attr (List.mem_cons_self attr rest)
        obtain ⟨pad, hpadeq, heq, hal4, halw, hpadlt⟩ := saveVec_ok host b attr v hdok hc
        have hw8 : attr.dtype.itemsize ≤ 8 := by
          rcases itemsize_cases attr.dtype hdok with h | h | h | h <;> omega
        have hw1 : 1 ≤ attr.dtype.itemsize := by
          rcases itemsize_cases attr.dtype hdok with h | h | h | h <;> omega
        have hpl : (v.data.flatMap
            (fun x => leBytesU attr.dtype.itemsize (toU attr.dtype.itemsize x))).length =
            v.data.length * attr.dtype.itemsize :=
          flatMap_length_const _ _ _ (fun x => leBytesU_length _ _)
        have hvd : (List.lookup attr.name values).getD default = v := by
          rw [hlook]
          rfl
        have hcostA : attrCost attr values =
            v.data.length * attr.dtype.itemsize + 50 := by
          unfold attrCost
          rw [hvd]
        obtain ⟨B2, htw, hp2e, hlen2or, hmin2, hvec2, hvt2, hgt⟩ :=
          tableWrite_ok
            { b with
                buf := leBytesU 4 (v.data.length * attr.dtype.itemsize) ++
                  ((v.data.flatMap
                    (fun x => leBytesU attr.dtype.itemsize (toU attr.dtype.itemsize x))) ++
                    (List.replicate pad 0 ++ b.buf)),
                minalign := max (max b.minalign 4) attr.dtype.itemsize,
                vectorNumElems := v.data.length * attr.dtype.itemsize }
            (b.buf.length + pad + v.data.length * attr.dtype.itemsize + 4)
            (VtOK_extend b _ (leBytesU 4 (v.data.length * attr.dtype.itemsize) ++
                ((v.data.flatMap
                  (fun x => leBytesU attr.dtype.itemsize (toU attr.dtype.itemsize x))) ++
                  List.replicate pad 0)) rfl (by simp [List.append_assoc]) hvt)
            (by omega)
            (by unfold Builder.offset
                dsimp only
                simp only [List.length_append, leBytesU_length, List.length_replicate, hpl]
                omega)
            (by unfold Builder.offset
                dsimp only
                simp only [List.length_append, leBytesU_length, List.length_replicate, hpl]
                omega)
            (by unfold Builder.offset
                dsimp only
                simp only [List.length_append, leBytesU_length, List.length_replicate, hpl]
                rw [hcost, hcostA] at hbound
                omega)
        obtain ⟨p2, hp2⟩ := hp2e
        dsimp only at htw hp2 hlen2or hmin2 hgt
        simp only [List.length_append, leBytesU_length, List.length_replicate, hpl]
          at htw hp2 hlen2or hmin2 hgt
        obtain ⟨B3, r3, hw3, ⟨p3, hp3⟩, hmono3, hsize3, hmin3, hvt3, hcontent3, hsucc3⟩ :=
          ih B2 hvt2 (fun a ha => hok a (List.mem_cons_of_mem attr ha))
            (by rw [hcost, hcostA] at hbound
                omega)
        have hbv : GoodByteVec
            ((leBytesU 4 (v.data.length * attr.dtype.itemsize) ++
              ((v.data.flatMap
                (fun x => leBytesU attr.dtype.itemsize (toU attr.dtype.itemsize x))) ++
                (List.replicate pad 0 ++ b.buf))))
            (b.buf.length + pad + v.data.length * attr.dtype.itemsize + 4)
            (expectedAttrBytes attr v) := by
          have h := GoodByteVec_front (expectedAttrBytes attr v)
            (List.replicate pad 0 ++ b.buf)
            (by rw [expectedAttrBytes_length]
                rw [hcost, hcostA] at hbound
                omega)
            (b.buf.length + pad + v.data.length * attr.dtype.itemsize + 4)
            (by rw [expectedAttrBytes_length]
                simp only [List.length_append, List.length_replicate]
                omega)
          rw [expectedAttrBytes_length] at h
          exact h
        unfold writeLoop
        rw [hlook]
        dsimp only
        rw [heq]
        dsimp only
        unfold fbapi.AttributeStart fbapi.AttributeAddAttributeBytes fbapi.AttributeEnd
        rw [htw]
        dsimp only
        rw [hw3]
        rcases r3 with e3 | offs3
        · -- a later attribute failed
          dsimp only
          refine ⟨B3, .error e3, rfl,
            ⟨p3 ++ (p2 ++ (leBytesU 4 (v.data.length * attr.dtype.itemsize) ++
              ((v.data.flatMap
                (fun x => leBytesU attr.dtype.itemsize (toU attr.dtype.itemsize x))) ++
                List.replicate pad 0))), by
              rw [hp3, hp2]
              simp [List.append_assoc]⟩,
            ?_, ?_, ?_, hvt3, ?_, ?_⟩
          · omega
          · rw [hcost, hcostA]
            omega
          · rw [hmin2] at hmin3
            omega
          · intro offs h
            exact Except.noConfusion h
          · intro hall
            obtain ⟨offs, hoffs⟩ := hsucc3
              (fun a ha => hall a (List.mem_cons_of_mem attr ha))
            exact Except.noConfusion hoffs
        · -- this attribute and the rest all succeeded
          dsimp only
          obtain ⟨hlen3, hbd3, hfa3, hgood3⟩ := hcontent3 offs3 rfl
          refine ⟨B3, .ok ((4 + (v.data.length * attr.dtype.itemsize +
              (pad + b.buf.length)) + 8) :: offs3), rfl,
            ⟨p3 ++ (p2 ++ (leBytesU 4 (v.data.length * attr.dtype.itemsize) ++
              ((v.data.flatMap
                (fun x => leBytesU attr.dtype.itemsize (toU attr.dtype.itemsize x))) ++
                List.replicate pad 0))), by
              rw [hp3, hp2]
              simp [List.append_assoc]⟩,
            ?_, ?_, ?_, hvt3, ?_, fun _ => ⟨_, rfl⟩⟩
          · omega
          · rw [hcost, hcostA]
            omega
          · rw [hmin2] at hmin3
            omega
          · intro offs h
            injection h with h2
            subst h2
            refine ⟨by simp only [List.length_cons, hlen3], ?_, ?_, ?_⟩
            · intro t ht
              rcases List.mem_cons.mp ht with h | h
              · subst h
                refine ⟨by omega, ?_⟩
                omega
              · exact hbd3 t h
            swap
            · intro a ha
              rcases List.mem_cons.mp ha with h | h
              · subst h
                exact ⟨v, hlook, hc⟩
              · exact hgood3 a h
            · unfold expectedExample
              rw [List.map_cons]
              refine List.Forall₂.cons ?_ hfa3
              rw [hvd]
              refine ⟨b.buf.length + pad + v.data.length * attr.dtype.itemsize + 4,
                ?_, ?_⟩
              · rw [hp3]
                exact GoodTable_append p3 _ _ _ hgt
              · rw [hp3, hp2, ← List.append_assoc]
                exact GoodByteVec_append (p3 ++ p2) _ _ _ hbv
      · -- unsafe cast: TypeMismatch, builder untouched
        have hcf : canCastSafe v.dtype attr.dtype = false := by
          cases hcb : canCastSafe v.dtype attr.dtype
          · rfl
          · exact absurd hcb hc
        refine ⟨b, .error .typeMismatch, ?_, ⟨[], by simp⟩, le_refl _,
          Nat.le_add_right _ _, le_max_left _ _, hvt, ?_, ?_⟩
        · unfold writeLoop
          rw [hlook]
          dsimp only
          rw [saveVec_typeMismatch host b attr v hcf]
        · intro offs h
          exact Except.noConfusion h
        · intro hall
          obtain ⟨v2, hv2, hc2⟩ := hall attr (List.mem_cons_self attr rest)
          rw [hlook] at hv2
          injection hv2 with hv2e
          rw [← hv2e] at hc2
          rw [hcf] at hc2
          exact Bool.noConfusion hc2

theorem forall₂_append {α β : Type} {R : α → β → Prop} {l₁ u₁ : List α} {l₂ u₂ : List β}
    (h1 : List.Forall₂ R l₁ l₂) (h2 : List.Forall₂ R u₁ u₂) :
    List.Forall₂ R (l₁ ++ u₁) (l₂ ++ u₂) := by
  induction h1 with
  | nil => exact h2
  | cons h _ ih => exact List.Forall₂.cons h ih

/-- The writer invariant between public calls: the working builder (the
lazily allocated one, or a fresh `Builder.init` before the first write) has
sound vtables and a bounded `minalign`, and the in-memory example offsets
decode, in insertion order, to the byte matrices recorded so far. -/
def WriterInv (w : ShardWriterFlatBuffer) (bss : List (List (List Nat))) : Prop :=
  VtOK (w.builder.getD Builder.init) ∧
  (w.builder.getD Builder.init).minalign ≤ 8 ∧
  (∀ t ∈ w.examples, 4 ≤ t ∧ t ≤ (w.builder.getD Builder.init).buf.length) ∧
  List.Forall₂ (GoodExample (w.builder.getD Builder.init).buf) w.examples bss

theorem WriterInv_mk0 (ds : DatasetStructure) :
    WriterInv (ShardWriterFlatBuffer.mk0 ds) [] := by
  refine ⟨?_, ?_, ?_, ?_⟩
  · intro t ht
    exact absurd ht (by simp [ShardWriterFlatBuffer.mk0, Builder.init])
  · norm_num [ShardWriterFlatBuffer.mk0, Builder.init]
  · intro t ht
    exact absurd ht (by simp [ShardWriterFlatBuffer.mk0])
  · exact List.Forall₂.nil

/-- A generous upper bound on the bytes one `_write` call can add. -/
def exampleCost (schema : List Attribute) (values : ExampleT) : Nat :=
  loopCost schema values + 4 * schema.length + 50

/-- One successful `_write`: every attribute present and safely castable.
The new example record is appended to the in-memory list, the invariant is
re-established with the example's byte matrix appended, and the buffer grows
by at most `exampleCost`. -/
theorem write_step (host : SysByteOrder) (w : ShardWriterFlatBuffer)
    (values : ExampleT) (bss : List (List (List Nat)))
    (hinv : WriterInv w bss)
    (hok : ∀ attr ∈ w.dataset_structure.saved_data_description, attr.dtype.ok = true)
    (hvals : ∀ a ∈ w.dataset_structure.saved_data_description,
      ∃ v, List.lookup a.name values = some v ∧ canCastSafe v.dtype a.dtype = true)
    (hbound : (w.builder.getD Builder.init).buf.length +
      exampleCost w.dataset_structure.saved_data_description values ≤ 2 ^ 31) :
    ∃ w', ShardWriterFlatBuffer._write host w values = (w', .ok ()) ∧
      w'.dataset_structure = w.dataset_structure ∧
      w'.examples.length = w.examples.length + 1 ∧
      WriterInv w'
        (bss ++ [expectedExample w.dataset_structure.saved_data_description values]) ∧
      (w.builder.getD Builder.init).buf.length ≤
        (w'.builder.getD Builder.init).buf.length ∧
      (w'.builder.getD Builder.init).buf.length ≤
        (w.builder.getD Builder.init).buf.length +
          exampleCost w.dataset_structure.saved_data_description values := by
  obtain ⟨hvt, hmin, hex, hfa⟩ := hinv
  obtain ⟨B3, r3, hw3, ⟨p3, hp3⟩, hmono3, hsize3, hmin3, hvt3, hcontent3, hsucc3⟩ :=
    writeLoop_inv host (w.builder.getD Builder.init)
      w.dataset_structure.saved_data_description values hvt hok
      (by unfold exampleCost at hbound; omega)
  obtain ⟨offs, hoffseq⟩ := hsucc3 hvals
  subst hoffseq
  obtain ⟨hlen3, hbd3, hfa3, -⟩ := hcontent3 offs rfl
  obtain ⟨B4, huv, ⟨p4, hp4⟩, hlen4, hal4, hPlt, hmin4, hvec4, hoe4, hcv4, hvtb4, hguv⟩ :=
    uvecWrite_ok B3 offs hbd3
      (by unfold exampleCost at hbound
          rw [hlen3]
          omega)
  have hvt4 : VtOK B4 := VtOK_extend B3 B4 p4 hvtb4 hp4 hvt3
  obtain ⟨B5, htw5, ⟨p5, hp5⟩, hlen5or, hmin5, hvec5, hvt5, hgt5⟩ :=
    tableWrite_ok B4
      (B3.buf.length + Builder.padLen 4 B3.buf.length + 4 * offs.length + 4)
      hvt4
      (by omega)
      (le_of_eq hlen4.symm)
      hal4
      (by show B4.buf.length + 20 ≤ 2 ^ 31
          unfold exampleCost at hbound
          rw [hlen3] at hlen4
          omega)
  unfold ShardWriterFlatBuffer._write
  dsimp only
  rw [hw3]
  dsimp only
  unfold fbapi.ExampleStartAttributesVector fbapi.ExampleStart
    fbapi.ExampleAddAttributes fbapi.ExampleEnd
  rw [huv]
  dsimp only
  rw [htw5]
  dsimp only
  refine ⟨_, rfl, rfl, by simp, ?_, ?_, ?_⟩
  · refine ⟨?_, ?_, ?_, ?_⟩
    · simp only [Option.getD_some]
      exact hvt5
    · simp only [Option.getD_some]
      rw [hmin5, hmin4]
      omega
    · intro t ht
      simp only [Option.getD_some]
      rcases List.mem_append.mp ht with h | h
      · obtain ⟨h1, h2⟩ := hex t h
        refine ⟨h1, ?_⟩
        rw [hlen3] at hlen4
        omega
      · simp only [List.mem_singleton] at h
        subst h
        refine ⟨by omega, by omega⟩
    · simp only [Option.getD_some]
      refine forall₂_append ?_ ?_
      · rw [hp5, hp4, hp3, ← List.append_assoc, ← List.append_assoc]
        exact hfa.imp (fun {a bb} ha => GoodExample_append _ _ a bb ha)
      · refine List.Forall₂.cons ?_ List.Forall₂.nil
        refine ⟨B3.buf.length + Builder.padLen 4 B3.buf.length + 4 * offs.length + 4,
          offs, hgt5, ?_, ?_⟩
        · rw [hp5]
          exact GoodUVec_append p5 _ _ _ hguv
        · rw [hp5, hp4, ← List.append_assoc]
          exact hfa3.imp (fun {a bb} ha => GoodAttr_append _ _ a bb ha)
  · simp only [Option.getD_some]
    omega
  · simp only [Option.getD_some]
    unfold exampleCost
    rw [hlen3] at hlen4
    omega

/-- The caller's loop: `write(E1); write(E2); ...` — each example through the
public single-example entry point, stopping at the first error. -/
def writeMany (host : SysByteOrder) (w : ShardWriterFlatBuffer) :
    List ExampleT → ShardWriterFlatBuffer × Except EncodeError Unit
  | [] => (w, .ok ())
  | m :: ms =>
    match ShardWriterFlatBuffer._write host w m with
    | (w1, .ok _) => writeMany host w1 ms
    | (w1, .error e) => (w1, .error e)

/-- A generous upper bound on the bytes a sequence of writes can add. -/
def manyCost (schema : List Attribute) : List ExampleT → Nat
  | [] => 0
  | m :: ms => exampleCost schema m + manyCost schema ms

/-- A sequence of well-formed writes: all succeed, and the invariant holds
with the examples' byte matrices appended in write order. -/
theorem writeMany_ok (host : SysByteOrder) (w : ShardWriterFlatBuffer)
    (ms : List ExampleT) (bss : List (List (List Nat)))
    (hinv : WriterInv w bss)
    (hok : ∀ attr ∈ w.dataset_structure.saved_data_description, attr.dtype.ok = true)
    (hvals : ∀ m ∈ ms, ∀ a ∈ w.dataset_structure.saved_data_description,
      ∃ v, List.lookup a.name m = some v ∧ canCastSafe v.dtype a.dtype = true)
    (hbound : (w.builder.getD Builder.init).buf.length +
      manyCost w.dataset_structure.saved_data_description ms ≤ 2 ^ 31) :
    ∃ w', writeMany host w ms = (w', .ok ()) ∧
      w'.dataset_structure = w.dataset_structure ∧
      w'.examples.length = w.examples.length + ms.length ∧
      WriterInv w'
        (bss ++ ms.map (expectedExample w.dataset_structure.saved_data_description)) ∧
      (w.builder.getD Builder.init).buf.length ≤
        (w'.builder.getD Builder.init).buf.length ∧
      (w'.builder.getD Builder.init).buf.length ≤
        (w.builder.getD Builder.init).buf.length +
          manyCost w.dataset_structure.saved_data_description ms := by
  induction ms generalizing w bss with
  | nil =>
    refine ⟨w, rfl, rfl, by simp, by simpa using hinv, le_refl _, ?_⟩
    unfold manyCost
    omega
  | cons m ms ih =>
    have hmc : manyCost w.dataset_structure.saved_data_description (m :: ms) =
        exampleCost w.dataset_structure.saved_data_description m +
          manyCost w.dataset_structure.saved_data_description ms := rfl
    obtain ⟨w1, hw1, hds1, hlen1, hinv1, hmono1, hsize1⟩ :=
      write_step host w m bss hinv hok
        (hvals m (List.mem_cons_self m ms))
        (by rw [hmc] at hbound; omega)
    obtain ⟨w2, hw2, hds2, hlen2, hinv2, hmono2, hsize2⟩ :=
      ih w1 (bss ++ [expectedExample w.dataset_structure.saved_data_description m])
        hinv1
        (by rw [hds1]; exact hok)
        (by rw [hds1]; exact fun m2 hm2 => hvals m2 (List.mem_cons_of_mem m hm2))
        (by rw [hds1]
            rw [hmc] at hbound
            omega)
    refine ⟨w2, ?_, by rw [hds2, hds1], ?_, ?_, ?_, ?_⟩
    · unfold writeMany
      rw [hw1]
      dsimp only
      exact hw2
    · rw [hlen2, hlen1, List.length_cons]
      omega
    · rw [hds1] at hinv2
      rw [List.append_assoc] at hinv2
      simpa using hinv2
    · omega
    · rw [hds1] at hsize2
      rw [hmc]
      omega

/-- Decoding one example record through the shard decoder's inner step. -/
theorem decodeExample_of_good (buf : List Nat) (t : Nat) (bss : List (List Nat))
    (h : GoodExample buf t bss) :
    (do
      let av ← tableField0 buf t
      (decodeUVector buf av).mapM (fun aoff => do
        let bv ← tableField0 buf aoff
        pure (decodeByteVector buf bv))) = some bss := by
  obtain ⟨av, ts, ⟨-, -, -, h4⟩, ⟨-, -, -, hu4⟩, hfa⟩ := h
  rw [h4]
  show (decodeUVector buf av).mapM _ = some bss
  rw [hu4]
  refine mapM_of_forall₂ _ _ _ ?_
  refine hfa.imp ?_
  intro a bs ha
  obtain ⟨bv, ⟨-, -, -, ht4⟩, ⟨-, -, -, hb4⟩⟩ := ha
  show (do
    let bv2 ← tableField0 buf a
    pure (decodeByteVector buf bv2)) = some bs
  rw [ht4]
  show some (decodeByteVector buf bv) = some bs
  rw [hb4]

/-- `Finish(rootTable)`: `minalign` padding, then the root offset placed in
what become the first four bytes of the file; the decoder's root computation
lands back on `rootTable`. -/
theorem finish_ok (b : Builder) (root : Nat)
    (hroot : 4 ≤ root) (hrle : root ≤ b.buf.length)
    (hm : 0 < b.minalign) (hm8 : b.minalign ≤ 8)
    (hbound : b.buf.length + 20 ≤ 2 ^ 31) :
    ∃ q, q ≤ 10 ∧
      (b.finish root).buf = leBytesU 4 (b.buf.length + q - root + 4) ++
        (List.replicate q 0 ++ b.buf) ∧
      (b.finish root).buf.length = b.buf.length + q + 4 ∧
      (b.finish root).buf.length -
        readU32end (b.finish root).buf (b.finish root).buf.length = root := by
  have hq1lt := padLen_lt b.minalign (b.buf.length + 4) hm
  unfold Builder.finish Builder.prependUOffsetTRelative Builder.prep
    Builder.place32 Builder.offset
  dsimp only
  simp only [List.length_append, List.length_replicate, Nat.add_zero]
  have hq2lt := padLen_lt 4
    (Builder.padLen b.minalign (b.buf.length + 4) + b.buf.length) (by norm_num)
  refine ⟨Builder.padLen 4
      (Builder.padLen b.minalign (b.buf.length + 4) + b.buf.length) +
      Builder.padLen b.minalign (b.buf.length + 4), by omega, ?_, ?_, ?_⟩
  · rw [List.replicate_add, List.append_assoc]
    rw [show b.buf.length +
        (Builder.padLen 4 (Builder.padLen b.minalign (b.buf.length + 4) + b.buf.length) +
          Builder.padLen b.minalign (b.buf.length + 4)) - root + 4 =
        Builder.padLen 4 (Builder.padLen b.minalign (b.buf.length + 4) + b.buf.length) +
          (Builder.padLen b.minalign (b.buf.length + 4) + b.buf.length) - root + 4 from by
      omega]
  · simp only [List.length_append, List.length_replicate, leBytesU_length]
    omega
  · simp only [List.length_append, List.length_replicate, leBytesU_length]
    have hrl : (List.replicate
        (Builder.padLen 4 (Builder.padLen b.minalign (b.buf.length + 4) + b.buf.length)) 0 ++
        (List.replicate (Builder.padLen b.minalign (b.buf.length + 4)) 0 ++ b.buf)).length =
        Builder.padLen 4 (Builder.padLen b.minalign (b.buf.length + 4) + b.buf.length) +
          (Builder.padLen b.minalign (b.buf.length + 4) + b.buf.length) := by
      simp only [List.length_append, List.length_replicate]
    rw [show 4 + (Builder.padLen 4 (Builder.padLen b.minalign (b.buf.length + 4) + b.buf.length) +
          (Builder.padLen b.minalign (b.buf.length + 4) + b.buf.length)) =
        (List.replicate
            (Builder.padLen 4 (Builder.padLen b.minalign (b.buf.length + 4) + b.buf.length)) 0 ++
          (List.replicate (Builder.padLen b.minalign (b.buf.length + 4)) 0 ++ b.buf)).length +
          4 from by
      rw [hrl]
      omega]
    rw [readU32end_front]
    rw [Nat.mod_eq_of_lt (by omega)]
    rw [hrl]
    omega

/-- `close` on a writer holding at least one example: the examples vector,
the `Shard` record and `Finish`; the builder's buffer goes to the sink and
the writer forgets its builder.  The file decodes to exactly the recorded
byte matrices, in order. -/
theorem close_ok (w : ShardWriterFlatBuffer) (bss : List (List (List Nat)))
    (hinv : WriterInv w bss)
    (hne : ¬ w.examples = [])
    (hbound : (w.builder.getD Builder.init).buf.length +
      4 * w.examples.length + 60 ≤ 2 ^ 31) :
    ∃ out, w.close = ({ w with builder := none }, some out) ∧
      decodeShard out = some bss := by
  obtain ⟨hvt, hmin, hex, hfa⟩ := hinv
  obtain ⟨B4, huv, ⟨p4, hp4⟩, hlen4, hal4, hPlt, hmin4, hvec4, hoe4, hcv4, hvtb4, hguv⟩ :=
    uvecWrite_ok (w.builder.getD Builder.init) w.examples hex (by omega)
  have hvt4 : VtOK B4 := VtOK_extend _ B4 p4 hvtb4 hp4 hvt
  obtain ⟨B5, htw5, ⟨p5, hp5⟩, hlen5or, hmin5, hvec5, hvt5, hgt5⟩ :=
    tableWrite_ok B4
      ((w.builder.getD Builder.init).buf.length +
        Builder.padLen 4 (w.builder.getD Builder.init).buf.length +
        4 * w.examples.length + 4)
      hvt4 (by omega) (le_of_eq hlen4.symm) hal4
      (by show B4.buf.length + 20 ≤ 2 ^ 31
          omega)
  obtain ⟨q, hqle, hfbuf, hflen, hfroot⟩ := finish_ok B5 (B4.buf.length + 8)
    (by omega)
    (by omega)
    (by rw [hmin5]; omega)
    (by rw [hmin5, hmin4]; omega)
    (by omega)
  unfold ShardWriterFlatBuffer.close
  rw [if_neg hne]
  dsimp only
  unfold fbapi.ShardStartExamplesVector fbapi.ShardStart fbapi.ShardAddExamples
    fbapi.ShardEnd
  rw [huv]
  dsimp only
  rw [htw5]
  dsimp only
  refine ⟨(B5.finish (B4.buf.length + 8)).buf, rfl, ?_⟩
  have hout : (B5.finish (B4.buf.length + 8)).buf =
      (leBytesU 4 (B5.buf.length + q - (B4.buf.length + 8) + 4) ++
        List.replicate q 0) ++ B5.buf := by
    rw [hfbuf, List.append_assoc]
  unfold decodeShard
  dsimp only
  rw [hfroot]
  have hgt5' : GoodTable (B5.finish (B4.buf.length + 8)).buf (B4.buf.length + 8)
      ((w.builder.getD Builder.init).buf.length +
        Builder.padLen 4 (w.builder.getD Builder.init).buf.length +
        4 * w.examples.length + 4) := by
    rw [hout]
    exact GoodTable_append _ _ _ _ hgt5
  obtain ⟨-, -, -, hgt5f⟩ := hgt5'
  rw [hgt5f]
  show (decodeUVector (B5.finish (B4.buf.length + 8)).buf
      ((w.builder.getD Builder.init).buf.length +
        Builder.padLen 4 (w.builder.getD Builder.init).buf.length +
        4 * w.examples.length + 4)).mapM _ = some bss
  have hguv' : GoodUVec (B5.finish (B4.buf.length + 8)).buf
      ((w.builder.getD Builder.init).buf.length +
        Builder.padLen 4 (w.builder.getD Builder.init).buf.length +
        4 * w.examples.length + 4) w.examples := by
    rw [hout, hp5, ← List.append_assoc]
    exact GoodUVec_append _ _ _ _ hguv
  obtain ⟨-, -, -, hguvd⟩ := hguv'
  rw [hguvd]
  refine mapM_of_forall₂ _ _ _ ?_
  have hfaF : List.Forall₂ (GoodExample (B5.finish (B4.buf.length + 8)).buf)
      w.examples bss := by
    rw [hout, hp5, hp4, ← List.append_assoc, ← List.append_assoc]
    exact hfa.imp (fun {a bb} ha => GoodExample_append _ _ a bb ha)
  exact hfaF.imp (fun {a bb} ha => decodeExample_of_good _ a bb ha)

/-- The attribute loop reads the caller's mapping only through name lookups
(`values[attribute.name]`), so two mappings answering every lookup
identically are interchangeable. -/
theorem writeLoop_lookup_congr (host : SysByteOrder) (b : Builder)
    (schema : List Attribute) (values values2 : ExampleT)
    (h : ∀ a, List.lookup a values = List.lookup a values2) :
    writeLoop host b schema values = writeLoop host b schema values2 := by
  induction schema generalizing b with
  | nil => rfl
  | cons attr rest ih =>
    unfold writeLoop
    rw [← h attr.name]
    cases hE : List.lookup attr.name values
    · rfl
    · dsimp only
      rename_i v
      cases hS : save_numpy_vector_as_bytearray host b attr v
      rename_i b1 r
      cases r
      · rfl
      · dsimp only
        rw [ih]

theorem write_lookup_congr (host : SysByteOrder) (w : ShardWriterFlatBuffer)
    (values values2 : ExampleT)
    (h : ∀ a, List.lookup a values = List.lookup a values2) :
    ShardWriterFlatBuffer._write host w values =
      ShardWriterFlatBuffer._write host w values2 := by
  unfold ShardWriterFlatBuffer._write
  dsimp only
  rw [writeLoop_lookup_congr host _ _ values values2 h]

theorem writeMany_lookup_congr (host : SysByteOrder) (w : ShardWriterFlatBuffer)
    (ms ms2 : List ExampleT)
    (h : List.Forall₂ (fun m m2 => ∀ a, List.lookup a m = List.lookup a m2) ms ms2) :
    writeMany host w ms = writeMany host w ms2 := by
  induction h generalizing w with
  | nil => rfl
  | cons h1 _ ih =>
    unfold writeMany
    rw [write_lookup_congr host w _ _ h1]
    cases hE : ShardWriterFlatBuffer._write host w _
    rename_i w1 r
    cases r
    · rfl
    · exact ih w1

/-- C4: for a sequence of `write` calls with examples `E1..En` followed by
`close()`, the persisted shard decodes to exactly `E1..En` in write order —
first write first, no reordering, no deduplication — and each decoded example
lists its attributes in schema order (the serialization of the values looked
up per `saved_data_description`, not per the mapping's iteration order); the
reversed prepends of the attribute and example offset vectors onto the
backward-growing assembler thus resolve to the intended logical order.
Mappings answering every name lookup identically produce the identical
writer run. -/
theorem C4_order_preservation (host : SysByteOrder) (ds : DatasetStructure)
    (ms : List ExampleT)
    (hne : ms ≠ [])
    (hok : ∀ attr ∈ ds.saved_data_description, attr.dtype.ok = true)
    (hvals : ∀ m ∈ ms, ∀ a ∈ ds.saved_data_description,
      ∃ v, List.lookup a.name m = some v ∧ canCastSafe v.dtype a.dtype = true)
    (hbound : manyCost ds.saved_data_description ms + 4 * ms.length + 60 ≤ 2 ^ 31) :
    ∃ w out, writeMany host (ShardWriterFlatBuffer.mk0 ds) ms = (w, .ok ()) ∧
      w.close = ({ w with builder := none }, some out) ∧
      decodeShard out = some (ms.map (expectedExample ds.saved_data_description)) ∧
      ∀ ms2, List.Forall₂ (fun m m2 => ∀ a, List.lookup a m = List.lookup a m2) ms ms2 →
        writeMany host (ShardWriterFlatBuffer.mk0 ds) ms2 =
          writeMany host (ShardWriterFlatBuffer.mk0 ds) ms := by
  have h0 : (((ShardWriterFlatBuffer.mk0 ds).builder.getD Builder.init)).buf.length = 0 :=
    rfl
  have hmceq : manyCost
      (ShardWriterFlatBuffer.mk0 ds).dataset_structure.saved_data_description ms =
      manyCost ds.saved_data_description ms := rfl
  have hex0 : (ShardWriterFlatBuffer.mk0 ds).examples.length = 0 := rfl
  obtain ⟨w, hwm, hds, hlen, hinv, hmono, hsize⟩ :=
    writeMany_ok host (ShardWriterFlatBuffer.mk0 ds) ms [] (WriterInv_mk0 ds) hok hvals
      (by rw [h0]; omega)
  rw [List.nil_append] at hinv
  have hlen2 : w.examples.length = ms.length := by
    rw [hlen]
    simp [ShardWriterFlatBuffer.mk0]
  obtain ⟨out, hcl, hdec⟩ := close_ok w
    (ms.map (expectedExample ds.saved_data_description)) hinv
    (by intro hE
        rw [hE] at hlen2
        exact hne (List.eq_nil_of_length_eq_zero hlen2.symm))
    (by rw [hlen2, h0] at *
        omega)
  exact ⟨w, out, hwm, hcl, hdec,
    fun ms2 h2 => (writeMany_lookup_congr host _ ms ms2 h2).symm⟩

/-- The one-attribute schema and the one-example run used as the concrete
check of the end-to-end write/close/decode path. -/
def msFix : List ExampleT := [[("x", arrGood)]]

theorem C4_order_preservation_witness :
    msFix ≠ [] ∧
    manyCost (⟨[attrX]⟩ : DatasetStructure).saved_data_description msFix +
      4 * msFix.length + 60 ≤ 2 ^ 31 ∧
    ∃ w out, writeMany SysByteOrder.little (ShardWriterFlatBuffer.mk0 ⟨[attrX]⟩) msFix =
        (w, .ok ()) ∧
      w.close = ({ w with builder := none }, some out) ∧
      decodeShard out = some (msFix.map
        (expectedExample (⟨[attrX]⟩ : DatasetStructure).saved_data_description)) ∧
      ∀ ms2, List.Forall₂ (fun m m2 => ∀ a, List.lookup a m = List.lookup a m2) msFix ms2 →
        writeMany SysByteOrder.little (ShardWriterFlatBuffer.mk0 ⟨[attrX]⟩) ms2 =
          writeMany SysByteOrder.little (ShardWriterFlatBuffer.mk0 ⟨[attrX]⟩) msFix :=
  ⟨by decide, by decide,
    C4_order_preservation SysByteOrder.little ⟨[attrX]⟩ msFix
      (by decide)
      (by intro a ha
          simp only [List.mem_singleton] at ha
          subst ha
          decide)
      (by intro m hm a ha
          simp only [msFix, List.mem_singleton] at hm ha
          subst hm
          subst ha
          exact ⟨arrGood, rfl, by decide⟩)
      (by decide)⟩

/-- C10: when `write` fails on an attribute of an example (unsafe cast — or a
missing name — possibly after earlier attributes were already embedded), the
bytes written so far stay in the buffer: the post-failure builder only
prepends to the pre-write buffer, nothing is rolled back.  The in-memory
example list gains no entry, and a subsequent `close()` produces a file whose
decoded content is exactly the fully-written examples, unaffected by the
orphaned bytes. -/
theorem C10_orphaned_bytes (host : SysByteOrder) (ds : DatasetStructure)
    (ms : List ExampleT) (bad : ExampleT)
    (hne : ms ≠ [])
    (hok : ∀ attr ∈ ds.saved_data_description, attr.dtype.ok = true)
    (hvals : ∀ m ∈ ms, ∀ a ∈ ds.saved_data_description,
      ∃ v, List.lookup a.name m = some v ∧ canCastSafe v.dtype a.dtype = true)
    (hbad : ∃ a ∈ ds.saved_data_description, ∀ v, List.lookup a.name bad = some v →
      canCastSafe v.dtype a.dtype = false)
    (hbound : manyCost ds.saved_data_description ms +
      loopCost ds.saved_data_description bad + 4 * ms.length + 60 ≤ 2 ^ 31) :
    ∃ w w2 e out,
      writeMany host (ShardWriterFlatBuffer.mk0 ds) ms = (w, .ok ()) ∧
      ShardWriterFlatBuffer._write host w bad = (w2, .error e) ∧
      w2.examples = w.examples ∧
      (∃ p, (w2.builder.getD Builder.init).buf =
        p ++ (w.builder.getD Builder.init).buf) ∧
      (w.builder.getD Builder.init).buf.length ≤
        (w2.builder.getD Builder.init).buf.length ∧
      w2.close = ({ w2 with builder := none }, some out) ∧
      decodeShard out = some (ms.map (expectedExample ds.saved_data_description)) := by
  have h0 : (((ShardWriterFlatBuffer.mk0 ds).builder.getD Builder.init)).buf.length = 0 :=
    rfl
  have hmceq : manyCost
      (ShardWriterFlatBuffer.mk0 ds).dataset_structure.saved_data_description ms =
      manyCost ds.saved_data_description ms := rfl
  have hex0 : (ShardWriterFlatBuffer.mk0 ds).examples.length = 0 := rfl
  have hlceq : loopCost
      (ShardWriterFlatBuffer.mk0 ds).dataset_structure.saved_data_description bad =
      loopCost ds.saved_data_description bad := rfl
  obtain ⟨w, hwm, hds, hlen, hinv, hmono, hsize⟩ :=
    writeMany_ok host (ShardWriterFlatBuffer.mk0 ds) ms [] (WriterInv_mk0 ds) hok hvals
      (by rw [h0]; omega)
  rw [List.nil_append] at hinv
  obtain ⟨hvt, hmin, hex, hfa⟩ := hinv
  have hwexlen : w.examples.length = ms.length := by
    rw [hlen]
    simp [ShardWriterFlatBuffer.mk0]
  have hsizew : (w.builder.getD Builder.init).buf.length ≤
      0 + manyCost ds.saved_data_description ms := hsize
  obtain ⟨b2, r2, hwL, ⟨p2, hp2⟩, hmono2, hsize2, hmin2, hvt2, hcontent2, -⟩ :=
    writeLoop_inv host (w.builder.getD Builder.init)
      w.dataset_structure.saved_data_description bad hvt
      (by rw [hds]; exact hok)
      (by rw [hds]
          omega)
  rcases r2 with e2 | offs2
  swap
  · obtain ⟨-, -, -, hgood2⟩ := hcontent2 offs2 rfl
    obtain ⟨a, ha, hbadp⟩ := hbad
    obtain ⟨v, hv, hcast⟩ := hgood2 a (by rw [hds]; exact ha)
    rw [hbadp v hv] at hcast
    exact Bool.noConfusion hcast
  · have hw2 : ShardWriterFlatBuffer._write host w bad =
        ({ w with builder := some b2 }, .error e2) := by
      unfold ShardWriterFlatBuffer._write
      dsimp only
      rw [hwL]
    have hsize2' : b2.buf.length ≤ (w.builder.getD Builder.init).buf.length +
        loopCost ds.saved_data_description bad := by
      rw [hds] at hsize2
      exact hsize2
    have hinv2 : WriterInv { w with builder := some b2 }
        (ms.map (expectedExample ds.saved_data_description)) := by
      refine ⟨?_, ?_, ?_, ?_⟩
      · simp only [Option.getD_some]
        exact hvt2
      · simp only [Option.getD_some]
        omega
      · intro t ht
        simp only [Option.getD_some]
        obtain ⟨h1, h2⟩ := hex t ht
        exact ⟨h1, by omega⟩
      · simp only [Option.getD_some]
        rw [hp2]
        exact hfa.imp (fun {a bb} ha => GoodExample_append _ _ a bb ha)
    obtain ⟨out, hcl, hdec⟩ := close_ok { w with builder := some b2 }
      (ms.map (expectedExample ds.saved_data_description)) hinv2
      (by intro hE
          have hE2 : w.examples = [] := hE
          rw [hE2] at hwexlen
          simp only [List.length_nil] at hwexlen
          exact hne (List.eq_nil_of_length_eq_zero hwexlen.symm))
      (by show b2.buf.length + 4 * w.examples.length + 60 ≤ 2 ^ 31
          omega)
    exact ⟨w, { w with builder := some b2 }, e2, out, hwm, hw2, rfl, ⟨p2, by
      simp only [Option.getD_some]
      exact hp2⟩, by
      simp only [Option.getD_some]
      omega, hcl, hdec⟩

theorem C10_orphaned_bytes_witness :
    msFix ≠ [] ∧
    canCastSafe arrBad.dtype attrX.dtype = false ∧
    ∃ w w2 e out,
      writeMany SysByteOrder.little (ShardWriterFlatBuffer.mk0 ⟨[attrX]⟩) msFix =
        (w, .ok ()) ∧
      ShardWriterFlatBuffer._write SysByteOrder.little w [("x", arrBad)] =
        (w2, .error e) ∧
      w2.examples = w.examples ∧
      (∃ p, (w2.builder.getD Builder.init).buf =
        p ++ (w.builder.getD Builder.init).buf) ∧
      (w.builder.getD Builder.init).buf.length ≤
        (w2.builder.getD Builder.init).buf.length ∧
      w2.close = ({ w2 with builder := none }, some out) ∧
      decodeShard out = some (msFix.map
        (expectedExample (⟨[attrX]⟩ : DatasetStructure).saved_data_description)) :=
  ⟨by decide, by decide,
    C10_orphaned_bytes SysByteOrder.little ⟨[attrX]⟩ msFix [("x", arrBad)]
      (by decide)
      (by intro a ha
          simp only [List.mem_singleton] at ha
          subst ha
          decide)
      (by intro m hm a ha
          simp only [msFix, List.mem_singleton] at hm ha
          subst hm
          subst ha
          exact ⟨arrGood, rfl, by decide⟩)
      ⟨attrX, by decide, by
        intro v hv
        have hv2 : some arrBad = some v := hv
        injection hv2 with hv3
        rw [← hv3]
        decide⟩
      (by decide)⟩

end Sedpack
